import Mathlib

/-!
# Verification of the SK Watch Bot core against its specification

This file gives a shallow embedding, in Lean 4, of the parts of the
SK Watch Bot (a Telegram bot that watches a government appointment portal)
that its specification makes checkable claims about, and proves or refutes
those claims.

The embedding follows the Python sources:

* `storage/db.py` — SQLite rows become Lean structures, tables become lists
  (newest-first where the code reads `ORDER BY ... DESC LIMIT 1`), the
  `settings` key-value table becomes a function `String → Option String`.
* `watcher/scheduler.py` — the per-watch update/finding step of
  `_process_single_category`, the diagnostics recorder `_record_diagnostics`,
  the timeout handler, and the `asyncio.PriorityQueue` (a CPython `heapq`
  binary heap whose elements compare only on the `priority` field, because
  `_Job` marks every other field `compare=False`).
* `auth/flow.py` — the control flow of `ensure_auth`, and the SMS-code
  prompt loop `_prompt_sms_code` together with the two delivery paths
  `try_handle_owner_message` and `submit_sms_code`.

Python conventions that matter are modelled explicitly: `or`-chains and
`if value:` tests use string/list truthiness (empty is falsy), `None`
becomes `Option`, and SQL `UPDATE ... WHERE` becomes a `List.map` guarded
by the row filter.
-/

namespace SkWatchBot

/-- Python truthiness of an optional string (`None` and `""` are falsy). -/
def optTruthy : Option String → Bool
  | none => false
  | some s => s ≠ ""

/-- Python `a or b` for strings (`""` is falsy). -/
def pyOr (a b : String) : String := if a = "" then b else a

/-- Python string value of an `Optional[str]` used in an `or`-chain
(`None` behaves like the falsy `""`). -/
def optStr : Option String → String
  | none => ""
  | some s => s

/-! ## Findings and the per-watch scheduler step

`db.record_finding` (`storage/db.py`) reads the most recent finding for the
watch (`SELECT found_value FROM findings WHERE watch_id = ? ORDER BY
found_at DESC LIMIT 1`) and inserts a new row only when the value differs.
The findings table is modelled as a list with the most recent row first.
-/

/-- A row of the `findings` table (`watch_id`, `found_value`;
`found_at`/`notified_at` do not matter for the claims proved here). -/
structure FindingRow where
  watchId : Nat
  foundValue : String
deriving DecidableEq, Repr

/-- Model of `db.record_finding`: insert a finding unless the most recent
finding for this watch already holds the same value, in which case return
`none` (the Python function returns `None` instead of a row id). -/
def recordFinding (findings : List FindingRow) (watchId : Nat) (value : String) :
    Option (List FindingRow) :=
  match (findings.filter (fun f => f.watchId == watchId)).head? with
  | some last => if last.foundValue = value then none
                 else some (⟨watchId, value⟩ :: findings)
  | none => some (⟨watchId, value⟩ :: findings)

/-- A row of the `watches` table, with the joined `category_key`/`city_key`
columns that `get_watches_by_category` adds. -/
structure WatchRow where
  id : Nat
  categoryKey : String
  cityKey : String
  enabled : Bool
  status : String
  lastSeenValue : Option String
  lastSeenAt : Option String
  lastCheckAt : Option String
  errorMsg : Option String
deriving DecidableEq, Repr

/-- Model of `db.update_watch_result`: `status` and `last_check_at` are
always overwritten; `last_seen_value`, `last_seen_at` and `error_msg` are
overwritten only when a non-`None` argument is supplied. -/
def updateWatchResult (w : WatchRow) (status : String)
    (lastSeenValue lastSeenAt errorMsg : Option String) (now : String) : WatchRow :=
  { w with
    status := status
    lastSeenValue := match lastSeenValue with | some v => some v | none => w.lastSeenValue
    lastSeenAt := match lastSeenAt with | some v => some v | none => w.lastSeenAt
    errorMsg := match errorMsg with | some v => some v | none => w.errorMsg
    lastCheckAt := some now }

/-- State threaded through the per-watch loop of
`WatcherScheduler._process_single_category`: the watch row, the findings
table, and the `new_findings` counter. -/
structure WatchLoopState where
  watch : WatchRow
  findings : List FindingRow
  newFindings : Nat
deriving Repr

/-- One iteration of the per-watch loop of `_process_single_category`
(scheduler.py lines 191–214) for the observation `(status, date_str)` taken
from the `updates` map: update the watch row via `update_watch_result`,
then record a finding when the status is `OK`, a (truthy) date was
extracted, and it differs from the watch's previous `last_seen_value`. -/
def processWatchObs (now : String) (st : WatchLoopState)
    (obs : String × Option String) : WatchLoopState :=
  let status := obs.1
  let dateStr := obs.2
  let lastSeenAt := if optTruthy dateStr then some now else none
  let errorMsg := if status ≠ "ERROR" then none else some ""
  let w' := updateWatchResult st.watch status dateStr lastSeenAt errorMsg now
  if status = "OK" ∧ optTruthy dateStr ∧ st.watch.lastSeenValue ≠ dateStr then
    match recordFinding st.findings st.watch.id (optStr dateStr) with
    | some findings' => ⟨w', findings', st.newFindings + 1⟩
    | none => ⟨w', st.findings, st.newFindings⟩
  else ⟨w', st.findings, st.newFindings⟩

/-- Run the per-watch step over a sequence of observations of one watch
(one observation per category check). -/
def runWatchObs (now : String) (st : WatchLoopState)
    (obss : List (String × Option String)) : WatchLoopState :=
  obss.foldl (processWatchObs now) st

/-- Consistency invariant maintained by the scheduler between a watch row
and the findings table: when the watch has findings, the most recent one
holds the watch's `last_seen_value`.  It holds initially (no findings,
`last_seen_value` NULL) and is preserved by every observation. -/
def watchConsistent (w : WatchRow) (findings : List FindingRow) : Prop :=
  match (findings.filter (fun f => f.watchId == w.id)).head? with
  | none => True
  | some f => w.lastSeenValue = some f.foundValue

theorem recordFinding_dup (findings : List FindingRow) (watchId : Nat) (value : String)
    (f : FindingRow)
    (hf : (findings.filter (fun f => f.watchId == watchId)).head? = some f)
    (hv : f.foundValue = value) :
    recordFinding findings watchId value = none := by
  simp [recordFinding, hf, hv]

theorem processWatchObs_same (now : String) (st : WatchLoopState) (v : String)
    (hv : st.watch.lastSeenValue = some v) :
    (processWatchObs now st ("OK", some v)).findings = st.findings ∧
    (processWatchObs now st ("OK", some v)).newFindings = st.newFindings ∧
    (processWatchObs now st ("OK", some v)).watch.lastSeenValue = some v ∧
    (processWatchObs now st ("OK", some v)).watch.id = st.watch.id := by
  simp only [processWatchObs, updateWatchResult, hv]
  constructor
  · split <;> simp_all
  · constructor
    · split <;> simp_all
    · constructor <;> split <;> simp_all

theorem processWatchObs_transition (now : String) (st : WatchLoopState) (v : String)
    (hcons : watchConsistent st.watch st.findings)
    (hv : v ≠ "") (hne : st.watch.lastSeenValue ≠ some v) :
    (processWatchObs now st ("OK", some v)).newFindings = st.newFindings + 1 ∧
    (processWatchObs now st ("OK", some v)).watch.lastSeenValue = some v ∧
    watchConsistent (processWatchObs now st ("OK", some v)).watch
      (processWatchObs now st ("OK", some v)).findings := by
  have hcond : optTruthy (some v) = true := by simp [optTruthy, hv]
  have hrec : recordFinding st.findings st.watch.id v =
      some (⟨st.watch.id, v⟩ :: st.findings) := by
    unfold watchConsistent at hcons
    unfold recordFinding
    cases hh : (st.findings.filter (fun f => f.watchId == st.watch.id)).head? with
    | none => simp
    | some f =>
      rw [hh] at hcons
      have : f.foundValue ≠ v := fun h => hne (h ▸ hcons)
      simp [this]
  simp only [processWatchObs, optStr]
  split
  · rw [hrec]
    refine ⟨rfl, rfl, ?_⟩
    simp [watchConsistent, updateWatchResult, List.filter]
  · rename_i hcontra
    exact absurd ⟨by trivial, hcond, hne⟩ hcontra

theorem runWatchObs_same (now : String) (st : WatchLoopState) (v : String) (n : Nat)
    (hv : st.watch.lastSeenValue = some v) :
    (runWatchObs now st (List.replicate n ("OK", some v))).newFindings = st.newFindings := by
  induction n generalizing st with
  | zero => rfl
  | succ n ih =>
    have h := processWatchObs_same now st v hv
    rw [List.replicate_succ]
    show (runWatchObs now (processWatchObs now st ("OK", some v))
      (List.replicate n ("OK", some v))).newFindings = st.newFindings
    rw [ih _ h.2.2.1, h.2.1]

/-- C1: Finding creation is deduplicated.  `record_finding` returns `None`
instead of inserting when the most recent finding for the watch already
holds the same value; and over any run of `n+1` identical scrape results
`(OK, v)` for one watch (starting from a state satisfying the
watch/findings consistency invariant the scheduler maintains), exactly one
finding is created when `v` differs from the watch's current
`last_seen_value` (the first transition into `v`) and zero findings are
created when it does not. -/
theorem claim1_finding_dedup :
    (∀ (findings : List FindingRow) (watchId : Nat) (value : String) (f : FindingRow),
      (findings.filter (fun f => f.watchId == watchId)).head? = some f →
      f.foundValue = value → recordFinding findings watchId value = none) ∧
    (∀ (now v : String) (st : WatchLoopState) (n : Nat),
      watchConsistent st.watch st.findings → v ≠ "" →
      (runWatchObs now st (List.replicate (n + 1) ("OK", some v))).newFindings =
        st.newFindings + (if st.watch.lastSeenValue = some v then 0 else 1)) := by
  refine ⟨recordFinding_dup, ?_⟩
  intro now v st n hcons hv
  by_cases heq : st.watch.lastSeenValue = some v
  · rw [runWatchObs_same now st v (n + 1) heq, if_pos heq, Nat.add_zero]
  · obtain ⟨hcount, hseen, _⟩ := processWatchObs_transition now st v hcons hv heq
    rw [List.replicate_succ]
    show (runWatchObs now (processWatchObs now st ("OK", some v))
      (List.replicate n ("OK", some v))).newFindings = _
    rw [runWatchObs_same now _ v n hseen, hcount, if_neg heq]

/-- Witness for C1 at a concrete watch: a fresh watch (no `last_seen_value`,
no findings) observed three times with the same date yields exactly one
finding, and `record_finding` on a duplicate value yields `none`. -/
theorem claim1_finding_dedup_witness :
    recordFinding [⟨5, "2025-03-14"⟩] 5 "2025-03-14" = none ∧
    (runWatchObs "2025-01-01T00:00:00"
      ⟨⟨1, "TRVALY_5Y", "kosice", true, "PAUSED", none, none, none, none⟩, [], 0⟩
      (List.replicate 3 ("OK", some "2025-03-14"))).newFindings = 1 := by
  constructor
  · exact claim1_finding_dedup.1 [⟨5, "2025-03-14"⟩] 5 "2025-03-14" ⟨5, "2025-03-14"⟩
      (by decide) rfl
  · have h := claim1_finding_dedup.2 "2025-01-01T00:00:00" "2025-03-14"
      ⟨⟨1, "TRVALY_5Y", "kosice", true, "PAUSED", none, none, none, none⟩, [], 0⟩ 2
      (by simp [watchConsistent]) (by decide)
    simpa using h

/-- C10: a `NO_DATE` observation never erases history.  `update_watch_result`
leaves `last_seen_value`/`last_seen_at`/`error_msg` unchanged when the
corresponding arguments are `None`; the scheduler's `NO_DATE` update is
exactly such a call (only `status` and `last_check_at` change, findings are
untouched); and a date that disappears (`NO_DATE`) and then reappears
identically produces no new finding. -/
theorem claim10_no_date_frame :
    (∀ (w : WatchRow) (status now : String),
      updateWatchResult w status none none none now =
        { w with status := status, lastCheckAt := some now }) ∧
    (∀ (now : String) (st : WatchLoopState),
      processWatchObs now st ("NO_DATE", none) =
        ⟨{ st.watch with status := "NO_DATE", lastCheckAt := some now },
          st.findings, st.newFindings⟩) ∧
    (∀ (now v : String) (st : WatchLoopState),
      watchConsistent st.watch st.findings → v ≠ "" →
      st.watch.lastSeenValue = some v →
      (runWatchObs now st [("NO_DATE", none), ("OK", some v)]).newFindings =
        st.newFindings) := by
  refine ⟨fun w status now => rfl, fun now st => rfl, ?_⟩
  intro now v st _ _ hseen
  show (processWatchObs now (processWatchObs now st ("NO_DATE", none))
    ("OK", some v)).newFindings = st.newFindings
  have hmid : processWatchObs now st ("NO_DATE", none) =
      ⟨{ st.watch with status := "NO_DATE", lastCheckAt := some now },
        st.findings, st.newFindings⟩ := rfl
  rw [hmid]
  exact (processWatchObs_same now _ v hseen).2.1

/-- Witness for C10: a watch that has seen `2025-03-14`, then gets a
`NO_DATE` scrape, then sees `2025-03-14` again, gains no finding. -/
theorem claim10_no_date_frame_witness :
    (runWatchObs "2025-01-02T00:00:00"
      ⟨⟨1, "TRVALY_5Y", "kosice", true, "OK", some "2025-03-14",
          some "2025-01-01T00:00:00", none, none⟩,
        [⟨1, "2025-03-14"⟩], 0⟩
      [("NO_DATE", none), ("OK", some "2025-03-14")]).newFindings = 0 := by
  exact claim10_no_date_frame.2.2 "2025-01-02T00:00:00" "2025-03-14"
    ⟨⟨1, "TRVALY_5Y", "kosice", true, "OK", some "2025-03-14",
        some "2025-01-01T00:00:00", none, none⟩,
      [⟨1, "2025-03-14"⟩], 0⟩
    (by simp [watchConsistent, List.filter]) (by decide) rfl

/-! ## Diagnostics

`WatcherScheduler._record_diagnostics` (scheduler.py lines 306–344) writes
one `diagnostics` row per city of the checked category, classifying each
row against the previous row for the same `(category, city)` pair fetched
by `db.get_last_diagnostic` (`ORDER BY recorded_at DESC, id DESC LIMIT 1`).
The table is modelled as a list with the most recent row first; the SHA-1
content hash is an abstract parameter `hash : String → String`. -/

/-- A row of the `diagnostics` table. -/
structure DiagRow where
  recordedAt : String
  categoryCode : String
  cityKey : String
  url : String
  status : String
  httpStatus : Option Int
  contentLen : Nat
  anchorHash : String
  diffLen : Int
  diffAnchor : String
  comment : String
deriving DecidableEq, Repr

/-- Model of `db.get_last_diagnostic`: the most recent diagnostics row for
one `(category, city)` pair. -/
def getLastDiagnostic (diags : List DiagRow) (catKey cityKey : String) :
    Option DiagRow :=
  (diags.filter (fun r => r.categoryCode == catKey && r.cityKey == cityKey)).head?

/-- The loop body of `_record_diagnostics` for one city: hash the raw
anchor text, compare with the previous row for the pair (`new` when there
is none, `changed` when the stored hash differs, `same` otherwise), set
`diff_len` to the current length minus the previous row's `content_len`
(`0` when there is no previous row), and build the comment as the Python
`or`-chain `date_str or default_comment or status`.  (The Python
`previous.get("content_len") or 0` / `previous.get("anchor_hash") or ""`
fallbacks only matter for NULL columns, which `record_diagnostic` never
writes.) -/
def recordDiagCity (hash : String → String) (diags : List DiagRow)
    (catKey cityKey pageUrl status : String) (dateStr : Option String)
    (anchorText : String) (httpStatus : Option Int)
    (defaultComment now : String) : List DiagRow :=
  let anchorHash := hash anchorText
  let comment := pyOr (optStr dateStr) (pyOr defaultComment status)
  let previous := getLastDiagnostic diags catKey cityKey
  let prevLen : Nat := match previous with | some p => p.contentLen | none => 0
  let diffLen : Int := (anchorText.length : Int) - (prevLen : Int)
  let diffAnchor := match previous with
    | none => "new"
    | some p => if pyOr p.anchorHash "" ≠ anchorHash then "changed" else "same"
  ⟨now, catKey, cityKey, pageUrl, status, httpStatus, anchorText.length,
    anchorHash, diffLen, diffAnchor, comment⟩ :: diags

/-- One scrape outcome for a fixed `(category, city)` pair, as fed to
`_record_diagnostics` on one run. -/
structure DiagObs where
  status : String
  dateStr : Option String
  anchorText : String
  httpStatus : Option Int
  defaultComment : String
  url : String
  now : String
deriving Repr

/-- Record a sequence of scrape outcomes for one `(category, city)` pair. -/
def runDiagObs (hash : String → String) (catKey cityKey : String)
    (diags : List DiagRow) (obss : List DiagObs) : List DiagRow :=
  obss.foldl (fun d o =>
    recordDiagCity hash d catKey cityKey o.url o.status o.dateStr o.anchorText
      o.httpStatus o.defaultComment o.now) diags

/-- The chain property claimed for diagnostics of one pair (rows listed
most recent first): the chronologically first row is `new` with
`diff_len = content_len`; every later row is `changed` iff its hash
differs from the immediately preceding row's stored hash and `same`
otherwise, with `diff_len` the difference of the adjacent `content_len`s. -/
def diagChainOk : List DiagRow → Prop
  | [] => True
  | [r] => r.diffAnchor = "new" ∧ r.diffLen = (r.contentLen : Int)
  | r :: p :: rest =>
      (r.diffAnchor = if p.anchorHash ≠ r.anchorHash then "changed" else "same") ∧
      r.diffLen = (r.contentLen : Int) - (p.contentLen : Int) ∧
      diagChainOk (p :: rest)

theorem pyOr_empty (s : String) : pyOr s "" = s := by
  unfold pyOr; split <;> simp_all

theorem recordDiagCity_chain (hash : String → String)
    (catKey cityKey pageUrl status : String) (dateStr : Option String)
    (anchorText : String) (httpStatus : Option Int)
    (defaultComment now : String) (diags : List DiagRow)
    (hpair : ∀ r ∈ diags, r.categoryCode = catKey ∧ r.cityKey = cityKey)
    (hchain : diagChainOk diags) :
    diagChainOk (recordDiagCity hash diags catKey cityKey pageUrl status
      dateStr anchorText httpStatus defaultComment now) ∧
    (∀ r ∈ recordDiagCity hash diags catKey cityKey pageUrl status
      dateStr anchorText httpStatus defaultComment now,
      r.categoryCode = catKey ∧ r.cityKey = cityKey) := by
  have hfilter : diags.filter (fun r => r.categoryCode == catKey && r.cityKey == cityKey)
      = diags := by
    rw [List.filter_eq_self]
    intro r hr
    have := hpair r hr
    simp [this.1, this.2]
  constructor
  · cases diags with
    | nil => simp [recordDiagCity, getLastDiagnostic, diagChainOk]
    | cons p rest =>
      have hprev : getLastDiagnostic (p :: rest) catKey cityKey = some p := by
        simp [getLastDiagnostic, hfilter]
      simp only [recordDiagCity, hprev, diagChainOk, pyOr_empty]
      exact ⟨by trivial, by trivial, hchain⟩
  · intro r hr
    rw [recordDiagCity, List.mem_cons] at hr
    rcases hr with h | h
    · subst h; exact ⟨rfl, rfl⟩
    · exact hpair r h

theorem runDiagObs_chain (hash : String → String) (catKey cityKey : String)
    (obss : List DiagObs) (diags : List DiagRow)
    (hpair : ∀ r ∈ diags, r.categoryCode = catKey ∧ r.cityKey = cityKey)
    (hchain : diagChainOk diags) :
    diagChainOk (runDiagObs hash catKey cityKey diags obss) ∧
    (runDiagObs hash catKey cityKey diags obss).map
        (fun r => (r.contentLen, r.anchorHash)) =
      (obss.reverse.map (fun o => (o.anchorText.length, hash o.anchorText))) ++
        diags.map (fun r => (r.contentLen, r.anchorHash)) := by
  induction obss generalizing diags with
  | nil => exact ⟨hchain, by simp [runDiagObs]⟩
  | cons o obss ih =>
    have hstep := recordDiagCity_chain hash catKey cityKey o.url o.status
      o.dateStr o.anchorText o.httpStatus o.defaultComment o.now diags hpair hchain
    have hrun : runDiagObs hash catKey cityKey diags (o :: obss) =
        runDiagObs hash catKey cityKey
          (recordDiagCity hash diags catKey cityKey o.url o.status o.dateStr
            o.anchorText o.httpStatus o.defaultComment o.now) obss := rfl
    obtain ⟨hc, hm⟩ := ih _ hstep.2 hstep.1
    refine ⟨hrun ▸ hc, ?_⟩
    rw [hrun, hm]
    simp [recordDiagCity]

/-- C5: diagnostic classification.  Starting from an empty history for a
`(category, city)` pair, after any sequence of scrape outcomes the
recorded rows satisfy: the first row is `new` (with `diff_len` equal to
its own content length, i.e. previous length `0`); each later row is
`changed` iff its anchor hash differs from the immediately preceding
row's stored hash, `same` otherwise; `diff_len` is the current length
minus the previous row's `content_len`; and each row stores exactly the
current anchor text's length and hash. -/
theorem claim5_diagnostic_classification (hash : String → String)
    (catKey cityKey : String) (obss : List DiagObs) :
    diagChainOk (runDiagObs hash catKey cityKey [] obss) ∧
    (runDiagObs hash catKey cityKey [] obss).map
        (fun r => (r.contentLen, r.anchorHash)) =
      obss.reverse.map (fun o => (o.anchorText.length, hash o.anchorText)) := by
  have h := runDiagObs_chain hash catKey cityKey obss [] (by simp) trivial
  simpa using h

/-! ## Category timeout handling

The `except PlaywrightTimeoutError` branch of
`WatcherScheduler._process_single_category` (scheduler.py lines 234–253)
sets the category to `ERROR`/`timeout`, resets every watch of the category
via `db.reset_watches_for_category`, records one diagnostics row per watch
with no HTTP status and comment `"timeout"`, and returns `"ERROR"`. -/

/-- A row of the `categories` table. -/
structure CategoryRow where
  key : String
  title : String
  url : String
  enabled : Bool
  status : String
  lastCheckAt : Option String
  lastError : Option String
deriving DecidableEq, Repr

/-- Model of `db.set_category_status`. -/
def setCategoryStatus (cats : List CategoryRow) (key status : String)
    (lastError : Option String) (now : String) : List CategoryRow :=
  cats.map (fun c => if c.key = key then
    { c with status := status, lastCheckAt := some now, lastError := lastError }
  else c)

/-- Model of `db.reset_watches_for_category` (an `UPDATE ... WHERE
category_id = (SELECT id FROM categories WHERE key = ?)`). -/
def resetWatchesForCategory (watches : List WatchRow) (catKey status : String)
    (error : Option String) (now : String) : List WatchRow :=
  watches.map (fun w => if w.categoryKey = catKey then
    { w with status := status, errorMsg := error, lastCheckAt := some now }
  else w)

/-- Model of `_record_diagnostics` over the cities of `city_map` (iterated
in watch order), with the per-city `updates` and `raw_map` lookups and
their Python `dict.get` defaults `("NO_DATE", None)` and `""`. -/
def recordDiagnostics (hash : String → String) (diags : List DiagRow)
    (catKey : String) (cityKeys : List String) (pageUrl : String)
    (updates : String → Option (String × Option String))
    (raw : String → Option String) (httpStatus : Option Int)
    (defaultComment now : String) : List DiagRow :=
  cityKeys.foldl (fun d ck =>
    let u := (updates ck).getD ("NO_DATE", none)
    recordDiagCity hash d catKey ck pageUrl u.1 u.2 ((raw ck).getD "")
      httpStatus defaultComment now) diags

/-- The persistent state touched by a category check. -/
structure CheckDbState where
  categories : List CategoryRow
  watches : List WatchRow
  diagnostics : List DiagRow
deriving Repr

/-- The timeout branch of `_process_single_category`: category to
`ERROR`/`timeout`, all watches of the category to `ERROR`/`timeout`, a
diagnostics row per watch with `updates = {key: ("ERROR", None)}`, empty
`raw_map`, no HTTP status and default comment `"timeout"`; the check
returns `"ERROR"` instead of raising. -/
def categoryTimeoutHandler (hash : String → String) (st : CheckDbState)
    (catKey url now : String) : CheckDbState × String :=
  let cats' := setCategoryStatus st.categories catKey "ERROR" (some "timeout") now
  let watches' := resetWatchesForCategory st.watches catKey "ERROR" (some "timeout") now
  let cityKeys := (st.watches.filter (fun w => w.categoryKey == catKey)).map
    (fun w => w.cityKey)
  let diags' := recordDiagnostics hash st.diagnostics catKey cityKeys url
    (fun _ => some ("ERROR", none)) (fun _ => none) none "timeout" now
  (⟨cats', watches', diags'⟩, "ERROR")

theorem recordDiagnostics_timeout_rows (hash : String → String)
    (catKey url now : String) (cityKeys : List String) (diags : List DiagRow) :
    ∃ newRows : List DiagRow,
      recordDiagnostics hash diags catKey cityKeys url
        (fun _ => some ("ERROR", none)) (fun _ => none) none "timeout" now =
        newRows ++ diags ∧
      newRows.map (fun r => r.cityKey) = cityKeys.reverse ∧
      ∀ r ∈ newRows, r.httpStatus = none ∧ r.comment = "timeout" ∧
        r.categoryCode = catKey ∧ r.status = "ERROR" := by
  induction cityKeys generalizing diags with
  | nil => exact ⟨[], rfl, rfl, by simp⟩
  | cons ck rest ih =>
    have hstep : recordDiagnostics hash diags catKey (ck :: rest) url
        (fun _ => some ("ERROR", none)) (fun _ => none) none "timeout" now =
        recordDiagnostics hash
          (recordDiagCity hash diags catKey ck url "ERROR" none "" none "timeout" now)
          catKey rest url (fun _ => some ("ERROR", none)) (fun _ => none) none
          "timeout" now := rfl
    obtain ⟨rows, hrows, hmap, hprops⟩ :=
      ih (recordDiagCity hash diags catKey ck url "ERROR" none "" none "timeout" now)
    have hcity : ∃ row : DiagRow,
        recordDiagCity hash diags catKey ck url "ERROR" none "" none "timeout" now =
          row :: diags ∧ row.cityKey = ck ∧ row.httpStatus = none ∧
          row.comment = "timeout" ∧ row.categoryCode = catKey ∧
          row.status = "ERROR" := by
      refine ⟨_, rfl, rfl, rfl, ?_, rfl, rfl⟩
      show pyOr (optStr none) (pyOr "timeout" "ERROR") = "timeout"
      decide
    obtain ⟨row, hrow, hck, hprop⟩ := hcity
    refine ⟨rows ++ [row], ?_, ?_, ?_⟩
    · rw [hrow] at hrows
      have hstep2 : recordDiagnostics hash diags catKey (ck :: rest) url
          (fun _ => some ("ERROR", none)) (fun _ => none) none "timeout" now =
          recordDiagnostics hash (row :: diags) catKey rest url
            (fun _ => some ("ERROR", none)) (fun _ => none) none "timeout" now := by
        rw [← hrow]; exact hstep
      rw [hstep2, hrows, List.append_assoc, List.singleton_append]
    · rw [List.map_append, hmap, List.reverse_cons]
      simp [hck]
    · intro r hr
      rw [List.mem_append] at hr
      rcases hr with h | h
      · exact hprops r h
      · rw [List.mem_singleton] at h
        subst h
        exact ⟨hprop.1, hprop.2.1, hprop.2.2.1, hprop.2.2.2⟩

/-- C6: when a category check hits the scrape timeout, the category's
status becomes `ERROR` with `last_error = "timeout"`, every watch of the
category gets status `ERROR` with error message `"timeout"`, one
diagnostics row per watch of the category is recorded with no HTTP status
and comment `"timeout"`, and the check returns `"ERROR"` instead of
raising. -/
theorem claim6_timeout_handling (hash : String → String) (st : CheckDbState)
    (catKey url now : String) :
    (categoryTimeoutHandler hash st catKey url now).2 = "ERROR" ∧
    (∀ c ∈ (categoryTimeoutHandler hash st catKey url now).1.categories,
      c.key = catKey → c.status = "ERROR" ∧ c.lastError = some "timeout") ∧
    (∀ w ∈ (categoryTimeoutHandler hash st catKey url now).1.watches,
      w.categoryKey = catKey → w.status = "ERROR" ∧ w.errorMsg = some "timeout") ∧
    (∃ newRows : List DiagRow,
      (categoryTimeoutHandler hash st catKey url now).1.diagnostics =
        newRows ++ st.diagnostics ∧
      newRows.map (fun r => r.cityKey) =
        ((st.watches.filter (fun w => w.categoryKey == catKey)).map
          (fun w => w.cityKey)).reverse ∧
      ∀ r ∈ newRows, r.httpStatus = none ∧ r.comment = "timeout") := by
  refine ⟨rfl, ?_, ?_, ?_⟩
  · intro c hc hkey
    simp only [categoryTimeoutHandler, setCategoryStatus, List.mem_map] at hc
    obtain ⟨c₀, _, hmk⟩ := hc
    by_cases h : c₀.key = catKey
    · rw [if_pos h] at hmk
      subst hmk; exact ⟨rfl, rfl⟩
    · rw [if_neg h] at hmk
      subst hmk; exact absurd hkey h
  · intro w hw hkey
    simp only [categoryTimeoutHandler, resetWatchesForCategory, List.mem_map] at hw
    obtain ⟨w₀, _, hmk⟩ := hw
    by_cases h : w₀.categoryKey = catKey
    · rw [if_pos h] at hmk
      subst hmk; exact ⟨rfl, rfl⟩
    · rw [if_neg h] at hmk
      subst hmk; exact absurd hkey h
  · obtain ⟨rows, h1, h2, h3⟩ := recordDiagnostics_timeout_rows hash catKey url now
      ((st.watches.filter (fun w => w.categoryKey == catKey)).map (fun w => w.cityKey))
      st.diagnostics
    exact ⟨rows, h1, h2, fun r hr => ⟨(h3 r hr).1, (h3 r hr).2.1⟩⟩

/-- Witness for C6 on a one-category, two-watch state. -/
theorem claim6_timeout_handling_witness :
    (categoryTimeoutHandler (fun s => s)
      ⟨[⟨"PRECHODNY", "t", "u", true, "OK", none, none⟩],
        [⟨1, "PRECHODNY", "kosice", true, "OK", none, none, none, none⟩,
         ⟨2, "PRECHODNY", "nitra", false, "NO_DATE", none, none, none, none⟩],
        []⟩
      "PRECHODNY" "u" "2025-01-01T00:00:00").2 = "ERROR" ∧
    ((categoryTimeoutHandler (fun s => s)
      ⟨[⟨"PRECHODNY", "t", "u", true, "OK", none, none⟩],
        [⟨1, "PRECHODNY", "kosice", true, "OK", none, none, none, none⟩,
         ⟨2, "PRECHODNY", "nitra", false, "NO_DATE", none, none, none, none⟩],
        []⟩
      "PRECHODNY" "u" "2025-01-01T00:00:00").1.watches.map
        (fun w => (w.status, w.errorMsg))) =
      [("ERROR", some "timeout"), ("ERROR", some "timeout")] := by
  refine ⟨(claim6_timeout_handling (fun s => s) _ "PRECHODNY" "u"
    "2025-01-01T00:00:00").1, ?_⟩
  decide

/-! ## `ensure_auth` control flow

`AuthManager.ensure_auth` (auth/flow.py lines 64–108): unless `force` is
set, when the cached `auth_state` setting is `"OK"` and the cached
`auth_exp` setting is truthy and parses (via `datetime.fromisoformat`,
falling back to `datetime.min` on `ValueError`) to an instant after
`utcnow()`, a preflight is run against the live session; only a preflight
result of `"OK"` short-circuits the full login — any other preflight
result falls through to `_perform_login`.  The outcome of
`_perform_login`, the preflight, the timestamp parser and the clock are
abstract parameters; settings writes and screenshots do not affect the
control flow and are not modelled. -/

/-- The environment a single `ensure_auth` call runs in. -/
structure AuthEnv where
  loginUrl : String
  contextOk : Bool
  cachedState : Option String
  cachedExp : Option String
  parseIso : String → Option Int
  now : Int
  preflightResult : String
  loginResult : String

/-- Observable outcome of one `ensure_auth` call. -/
structure AuthOutcome where
  result : String
  loginRan : Bool
  preflightRanEarly : Bool
deriving DecidableEq, Repr

/-- Model of `datetime.min` as a timestamp (never after `utcnow()`;
the specific value is irrelevant because `now` is always later). -/
def pyDatetimeMin : Int := -62135596800

/-- Model of `AuthManager.ensure_auth`.  Missing `LOGIN_URL` or a failed
browser-context launch return `"ERROR"` before any auth logic runs. -/
def ensureAuth (env : AuthEnv) (force : Bool) : AuthOutcome :=
  if env.loginUrl = "" then ⟨"ERROR", false, false⟩
  else if ¬env.contextOk then ⟨"ERROR", false, false⟩
  else
    let cachedShortCircuit : Bool :=
      if force then false
      else match env.cachedState, env.cachedExp with
        | some st, some expStr =>
          if st = "OK" ∧ expStr ≠ "" then
            let exp := (env.parseIso expStr).getD pyDatetimeMin
            if env.now < exp then decide (env.preflightResult = "OK") else false
          else false
        | _, _ => false
    let preflightRanEarly : Bool :=
      if force then false
      else match env.cachedState, env.cachedExp with
        | some st, some expStr =>
          if st = "OK" ∧ expStr ≠ "" then
            decide (env.now < (env.parseIso expStr).getD pyDatetimeMin)
          else false
        | _, _ => false
    if cachedShortCircuit then ⟨"OK", false, true⟩
    else ⟨env.loginResult, true, preflightRanEarly⟩

theorem ensureAuth_cached_ok (env : AuthEnv) (t : Int)
    (hurl : env.loginUrl ≠ "") (hctx : env.contextOk = true)
    (hstate : env.cachedState = some "OK")
    (hexp : ∃ s, env.cachedExp = some s ∧ s ≠ "" ∧ env.parseIso s = some t)
    (hfuture : env.now < t) (hpre : env.preflightResult = "OK") :
    ensureAuth env false = ⟨"OK", false, true⟩ := by
  obtain ⟨s, hs, hne, hparse⟩ := hexp
  simp [ensureAuth, hurl, hctx, hstate, hs, hne, hparse, hfuture, hpre]

theorem ensureAuth_force_logs_in (env : AuthEnv)
    (hurl : env.loginUrl ≠ "") (hctx : env.contextOk = true) :
    ensureAuth env true = ⟨env.loginResult, true, false⟩ := by
  simp [ensureAuth, hurl, hctx]

/-- C3: `ensure_auth` caching semantics.  With `force=false`, cached state
`"OK"`, a truthy cached expiry parsing to a future instant, and a
preflight that returns `"OK"`, the full login protocol is not invoked and
`"OK"` is returned; with `force=true` the full login protocol runs
regardless of the cached state and expiry (given a configured `LOGIN_URL`
and a working browser context, without which either call returns
`"ERROR"` before reaching the auth logic). -/
theorem claim3_ensure_auth_cache (env : AuthEnv) (t : Int)
    (hurl : env.loginUrl ≠ "") (hctx : env.contextOk = true) :
    (env.cachedState = some "OK" →
      (∃ s, env.cachedExp = some s ∧ s ≠ "" ∧ env.parseIso s = some t) →
      env.now < t → env.preflightResult = "OK" →
      (ensureAuth env false).result = "OK" ∧
      (ensureAuth env false).loginRan = false) ∧
    (ensureAuth env true).loginRan = true := by
  refine ⟨fun hstate hexp hfut hpre => ?_, ?_⟩
  · rw [ensureAuth_cached_ok env t hurl hctx hstate hexp hfut hpre]
    exact ⟨rfl, rfl⟩
  · rw [ensureAuth_force_logs_in env hurl hctx]

/-- Witness for C3 at a concrete environment: cached `OK`, expiry one hour
ahead of the clock, preflight `OK`. -/
theorem claim3_ensure_auth_cache_witness :
    (ensureAuth
      ⟨"https://portal.example/login", true, some "OK", some "2025-01-01T13:00:00",
        (fun s => if s = "2025-01-01T13:00:00" then some 1735736400 else none),
        1735732800, "OK", "NEED_AUTH"⟩ false).loginRan = false ∧
    (ensureAuth
      ⟨"https://portal.example/login", true, some "OK", some "2025-01-01T13:00:00",
        (fun s => if s = "2025-01-01T13:00:00" then some 1735736400 else none),
        1735732800, "OK", "NEED_AUTH"⟩ true).loginRan = true := by
  have h := claim3_ensure_auth_cache
    ⟨"https://portal.example/login", true, some "OK", some "2025-01-01T13:00:00",
      (fun s => if s = "2025-01-01T13:00:00" then some 1735736400 else none),
      1735732800, "OK", "NEED_AUTH"⟩ 1735736400 (by decide) rfl
  exact ⟨(h.1 rfl ⟨"2025-01-01T13:00:00", rfl, by decide, by decide⟩ (by decide)
    rfl).2, h.2⟩

/-- Counterexample to C4 as stated: cached state `OK`, expiry in the
future, `force=false`, but the preflight returns `NEED_AUTH`.  The claim
says the login protocol is not invoked for every preflight outcome and
that the preflight's state is returned; the code instead falls through to
`_perform_login` (here returning `NEED_VPN`), so the login protocol runs
and its result — not the preflight's — is returned. -/
theorem claim4_preflight_only_counterexample :
    (ensureAuth
      ⟨"https://portal.example/login", true, some "OK", some "2025-01-01T13:00:00",
        (fun s => if s = "2025-01-01T13:00:00" then some 1735736400 else none),
        1735732800, "NEED_AUTH", "NEED_VPN"⟩ false).loginRan = true ∧
    (ensureAuth
      ⟨"https://portal.example/login", true, some "OK", some "2025-01-01T13:00:00",
        (fun s => if s = "2025-01-01T13:00:00" then some 1735736400 else none),
        1735732800, "NEED_AUTH", "NEED_VPN"⟩ false).result = "NEED_VPN" := by
  decide

/-- C4 (amended): with cached state `OK`, a future expiry and
`force=false`, the preflight is run; the login protocol is skipped and
`"OK"` returned only when the preflight returns `"OK"` — for any other
preflight outcome `_perform_login` is invoked and its result (not the
preflight's state) is what `ensure_auth` returns. -/
theorem claim4_preflight_gate (env : AuthEnv) (t : Int)
    (hurl : env.loginUrl ≠ "") (hctx : env.contextOk = true)
    (hstate : env.cachedState = some "OK")
    (hexp : ∃ s, env.cachedExp = some s ∧ s ≠ "" ∧ env.parseIso s = some t)
    (hfuture : env.now < t) :
    (ensureAuth env false).preflightRanEarly = true ∧
    (env.preflightResult = "OK" →
      ensureAuth env false = ⟨"OK", false, true⟩) ∧
    (env.preflightResult ≠ "OK" →
      (ensureAuth env false).loginRan = true ∧
      (ensureAuth env false).result = env.loginResult) := by
  obtain ⟨s, hs, hne, hparse⟩ := hexp
  refine ⟨?_, fun hpre => ensureAuth_cached_ok env t hurl hctx hstate
    ⟨s, hs, hne, hparse⟩ hfuture hpre, fun hpre => ?_⟩
  · simp [ensureAuth, hurl, hctx, hstate, hs, hne, hparse, hfuture]
    split <;> rfl
  · simp [ensureAuth, hurl, hctx, hstate, hs, hne, hparse, hfuture, hpre]

/-- Witness for the amended C4 at a concrete environment (preflight
`NEED_AUTH`, login result `ERROR`). -/
theorem claim4_preflight_gate_witness :
    (ensureAuth
      ⟨"https://portal.example/login", true, some "OK", some "2025-01-01T13:00:00",
        (fun s => if s = "2025-01-01T13:00:00" then some 1735736400 else none),
        1735732800, "NEED_AUTH", "ERROR"⟩ false).result = "ERROR" := by
  exact ((claim4_preflight_gate
    ⟨"https://portal.example/login", true, some "OK", some "2025-01-01T13:00:00",
      (fun s => if s = "2025-01-01T13:00:00" then some 1735736400 else none),
      1735732800, "NEED_AUTH", "ERROR"⟩ 1735736400 (by decide) rfl rfl
    ⟨"2025-01-01T13:00:00", rfl, by decide, by decide⟩ (by decide)).2.2
    (by decide)).2

/-! ## SMS-code prompting

`AuthManager._prompt_sms_code` (auth/flow.py lines 567–593) runs a loop of
at most 3 attempts; each attempt creates a fresh future, prompts the
operator, and waits up to 120 s.  A timeout returns `None` immediately
(the whole phase is abandoned, `_perform_login` then returns `NEED_SMS`).
A delivered code that is not exactly 6 digits sends a re-prompt and moves
to the next attempt — the slot is consumed.  Codes reach the future on two
paths: `try_handle_owner_message` validates the 6-digit shape and refuses
to resolve the future on bad input (re-prompting without consuming the
attempt), while `submit_sms_code` resolves the future with any string,
unvalidated.  Each attempt is modelled as receiving one event (an empty
event list behaves like a timeout, as the future would simply expire). -/

/-- What resolves one SMS attempt's future. -/
inductive SmsEvent where
  | timeout
  | code (s : String)
deriving DecidableEq, Repr

/-- Model of `re.fullmatch(r"\d{6}", s)` (ASCII digits; the inputs of
interest here are ASCII). -/
def sixDigits (s : String) : Bool := s.length == 6 && s.data.all Char.isDigit

/-- The attempt loop of `_prompt_sms_code`, with `attempts` slots left.
Returns the accepted code (or `none` on abandonment) and the number of
prompts issued (= attempt slots entered). -/
def promptSmsGo : Nat → List SmsEvent → Option String × Nat
  | 0, _ => (none, 0)
  | Nat.succ r, evs =>
    match evs.headD SmsEvent.timeout with
    | SmsEvent.timeout => (none, 1)
    | SmsEvent.code c =>
      if sixDigits c then (some c, 1)
      else
        let p := promptSmsGo r evs.tail
        (p.1, p.2 + 1)

/-- Model of `_prompt_sms_code` (`attempts = 3`). -/
def promptSmsCode (events : List SmsEvent) : Option String × Nat :=
  promptSmsGo 3 events

/-- ASCII whitespace, as stripped by Python `str.strip()` (the Unicode
whitespace Python also strips is irrelevant to the inputs considered). -/
def isSpaceCh (c : Char) : Bool :=
  c = ' ' ∨ c = '\t' ∨ c = '\n' ∨ c = '\r' ∨ c = '\x0b' ∨ c = '\x0c'

/-- Model of Python `str.strip()`. -/
def pyStrip (s : String) : String :=
  ⟨((s.data.dropWhile isSpaceCh).reverse.dropWhile isSpaceCh).reverse⟩

/-- What `try_handle_owner_message` does with an operator message. -/
inductive OwnerMsgAction where
  | resolveManual (ok : Bool)
  | repromptSms
  | resolveSms (code : String)
  | notHandled
deriving DecidableEq, Repr

/-- Model of `AuthManager.try_handle_owner_message` (auth/flow.py lines
152–167): a pending manual-captcha future intercepts done/cancel phrases;
otherwise a pending SMS future rejects any non-6-digit text with a
re-prompt (without resolving the future) and resolves it on a 6-digit
text. -/
def tryHandleOwnerMessage (manualPending smsPending : Bool) (text : String) :
    OwnerMsgAction :=
  let t := pyStrip text
  if manualPending ∧ (t.toLower = "готово" ∨ t.toLower = "done") then
    .resolveManual true
  else if manualPending ∧ (t.toLower = "отмена" ∨ t.toLower = "cancel") then
    .resolveManual false
  else if smsPending then
    if ¬sixDigits t then .repromptSms else .resolveSms t
  else .notHandled

/-- Model of `AuthManager.submit_sms_code`: resolves a pending SMS future
with the given string, with no shape validation. -/
def submitSmsCode (smsPending : Bool) (c : String) : Option String :=
  if smsPending then some c else none

/-- Counterexample to C7 as stated: the `submit_sms_code` hook resolves
the pending attempt with the unvalidated string `"12a456"`, and three such
invalid-shaped deliveries consume all 3 attempt slots and abandon the SMS
phase (`None`, hence `NEED_SMS`) — so an invalid input does consume an
attempt slot on that path, contradicting the claim that the attempt
counter is unchanged on every path that can deliver a code. -/
theorem claim7_sms_validation_counterexample :
    submitSmsCode true "12a456" = some "12a456" ∧
    promptSmsCode
      [SmsEvent.code "12a456", SmsEvent.code "12a456", SmsEvent.code "12a456"] =
      (none, 3) := by
  decide

/-- C7 (amended): non-6-digit input arriving through the owner-message
path is rejected with a re-prompt and does not resolve the pending
attempt (the attempt counter is unchanged); but a code delivered through
`submit_sms_code` bypasses validation, so an invalid-shaped code there
consumes one of the 3 attempt slots before the re-prompt; a valid-shaped
code completes the phase on the attempt it arrives in; and a per-attempt
timeout abandons the phase immediately (after which the login returns
`NEED_SMS`). -/
theorem claim7_sms_validation_amended :
    (∀ text : String, sixDigits (pyStrip text) = false →
      tryHandleOwnerMessage false true text = OwnerMsgAction.repromptSms) ∧
    (∀ (c : String) (evs : List SmsEvent), sixDigits c = true →
      promptSmsCode (SmsEvent.code c :: evs) = (some c, 1)) ∧
    (∀ (c : String) (evs : List SmsEvent), sixDigits c = false →
      promptSmsCode (SmsEvent.code c :: evs) =
        ((promptSmsGo 2 evs).1, (promptSmsGo 2 evs).2 + 1)) ∧
    (∀ evs : List SmsEvent, promptSmsCode (SmsEvent.timeout :: evs) = (none, 1)) := by
  refine ⟨fun text h => ?_, fun c evs h => ?_, fun c evs h => ?_, fun evs => rfl⟩
  · simp [tryHandleOwnerMessage, h]
  · simp [promptSmsCode, promptSmsGo, h]
  · simp [promptSmsCode, promptSmsGo, h]

/-- Witness for the amended C7 at concrete inputs: `"12a456"` via the
owner-message path re-prompts without resolving; `"123456"` is accepted on
the first attempt; `"12a456"` via the hook consumes a slot (a following
timeout shows two prompts were issued); a timeout abandons at once. -/
theorem claim7_sms_validation_amended_witness :
    tryHandleOwnerMessage false true "12a456" = OwnerMsgAction.repromptSms ∧
    promptSmsCode [SmsEvent.code "123456"] = (some "123456", 1) ∧
    promptSmsCode [SmsEvent.code "12a456", SmsEvent.timeout] = (none, 2) ∧
    promptSmsCode [SmsEvent.timeout] = (none, 1) := by
  refine ⟨claim7_sms_validation_amended.1 "12a456" (by decide),
    claim7_sms_validation_amended.2.1 "123456" [] (by decide), ?_,
    claim7_sms_validation_amended.2.2.2 [SmsEvent.timeout]⟩
  have h := claim7_sms_validation_amended.2.2.1 "12a456" [SmsEvent.timeout]
    (by decide)
  simpa using h

/-! ## Single-flight job processing

`WatcherScheduler._runner` (scheduler.py lines 93–106) is the only
consumer of the job queue, and `start` creates exactly one `_runner` task
(it returns early when one is already alive).  The loop takes one job,
processes it to completion under `self._lock`, and only then takes the
next.  This is modelled as an interleaving transition system over a pool
of consumer tasks (`runners`), each either idle or busy with a job; a step
either hands the queue head to an idle runner (the beginning of a
processing interval) or completes a busy runner's job (its end).  The
configuration built by `start` has exactly one runner, and the claim is
that in every reachable trace at most one job is ever in flight — i.e.
every trace prefix contains at most one more `takeJob` than `finishJob`,
so the processing intervals of two jobs never overlap. -/

/-- An observable event of the job-processing loop. -/
inductive RunnerEv where
  | takeJob (jobId : Nat)
  | finishJob (jobId : Nat)
deriving DecidableEq, Repr

/-- A configuration: the waiting queue and the pool of consumer tasks
(each `none` when idle, `some j` while processing job `j`). -/
structure RunnerConfig where
  queue : List Nat
  runners : List (Option Nat)
deriving DecidableEq, Repr

/-- One step of the loop: an idle runner takes the queue head, or a busy
runner finishes its job. -/
inductive RunnerStep : RunnerConfig → RunnerEv → RunnerConfig → Prop where
  | take (q : List Nat) (rs : List (Option Nat)) (i j : Nat) (rest : List Nat) :
      rs.get? i = some none → q = j :: rest →
      RunnerStep ⟨q, rs⟩ (.takeJob j) ⟨rest, rs.set i (some j)⟩
  | finish (q : List Nat) (rs : List (Option Nat)) (i j : Nat) :
      rs.get? i = some (some j) →
      RunnerStep ⟨q, rs⟩ (.finishJob j) ⟨q, rs.set i none⟩

/-- A trace of loop steps. -/
inductive RunnerTrace : RunnerConfig → List RunnerEv → RunnerConfig → Prop where
  | nil (c : RunnerConfig) : RunnerTrace c [] c
  | cons {c c' c'' : RunnerConfig} {e : RunnerEv} {es : List RunnerEv} :
      RunnerStep c e c' → RunnerTrace c' es c'' → RunnerTrace c (e :: es) c''

/-- Number of busy runners. -/
def busyCount (c : RunnerConfig) : Nat :=
  (c.runners.filter Option.isSome).length

/-- Number of `takeJob` events (processing intervals begun). -/
def countTake (evs : List RunnerEv) : Nat :=
  (evs.filter (fun e => match e with | .takeJob _ => true | _ => false)).length

/-- Number of `finishJob` events (processing intervals ended). -/
def countFinish (evs : List RunnerEv) : Nat :=
  (evs.filter (fun e => match e with | .finishJob _ => true | _ => false)).length

theorem filter_isSome_set_some (rs : List (Option Nat)) (i j : Nat)
    (h : rs.get? i = some none) :
    ((rs.set i (some j)).filter Option.isSome).length =
      (rs.filter Option.isSome).length + 1 := by
  induction rs generalizing i with
  | nil => simp at h
  | cons a rest ih =>
    cases i with
    | zero =>
      simp only [List.get?] at h
      cases h
      simp [List.set]
    | succ n =>
      simp only [List.get?] at h
      have := ih n h
      cases a <;> simp [List.set, List.filter_cons, this, Nat.add_assoc, Nat.add_comm 1]

theorem filter_isSome_set_none (rs : List (Option Nat)) (i j : Nat)
    (h : rs.get? i = some (some j)) :
    ((rs.set i none).filter Option.isSome).length + 1 =
      (rs.filter Option.isSome).length := by
  induction rs generalizing i with
  | nil => simp at h
  | cons a rest ih =>
    cases i with
    | zero =>
      simp only [List.get?] at h
      cases h
      simp [List.set]
    | succ n =>
      simp only [List.get?] at h
      have := ih n h
      cases a <;> simp [List.set, List.filter_cons, ← this, Nat.add_assoc, Nat.add_comm 1]

theorem runnerStep_count {c c' : RunnerConfig} {e : RunnerEv}
    (h : RunnerStep c e c') :
    busyCount c' + countFinish [e] = busyCount c + countTake [e] ∧
    c'.runners.length = c.runners.length := by
  cases h with
  | take q rs i j rest hidle hq =>
    refine ⟨?_, by simp⟩
    show ((rs.set i (some j)).filter Option.isSome).length + 0 =
      (rs.filter Option.isSome).length + 1
    rw [filter_isSome_set_some rs i j hidle]
  | finish q rs i j hbusy =>
    refine ⟨?_, by simp⟩
    show ((rs.set i none).filter Option.isSome).length + 1 =
      (rs.filter Option.isSome).length + 0
    rw [filter_isSome_set_none rs i j hbusy, Nat.add_zero]

theorem countTake_cons (e : RunnerEv) (es : List RunnerEv) :
    countTake (e :: es) = countTake [e] + countTake es := by
  simp only [countTake, List.filter_cons]
  split <;> simp [Nat.add_comm]

theorem countFinish_cons (e : RunnerEv) (es : List RunnerEv) :
    countFinish (e :: es) = countFinish [e] + countFinish es := by
  simp only [countFinish, List.filter_cons]
  split <;> simp [Nat.add_comm]

theorem runnerTrace_count {c c' : RunnerConfig} {evs : List RunnerEv}
    (h : RunnerTrace c evs c') :
    busyCount c' + countFinish evs = busyCount c + countTake evs ∧
    c'.runners.length = c.runners.length := by
  induction h with
  | nil => exact ⟨rfl, rfl⟩
  | cons hstep _ ih =>
    obtain ⟨h1, h2⟩ := runnerStep_count hstep
    obtain ⟨ih1, ih2⟩ := ih
    rw [countTake_cons, countFinish_cons]
    constructor
    · omega
    · rw [ih2, h2]

theorem runnerTrace_append {c c'' : RunnerConfig} {p s : List RunnerEv}
    (h : RunnerTrace c (p ++ s) c'') :
    ∃ cmid : RunnerConfig, RunnerTrace c p cmid := by
  induction p generalizing c with
  | nil => exact ⟨c, RunnerTrace.nil c⟩
  | cons e rest ih =>
    cases h with
    | cons hstep htr =>
      obtain ⟨cmid, hp⟩ := ih htr
      exact ⟨cmid, RunnerTrace.cons hstep hp⟩

/-- C9: single-flight execution.  From the configuration built by
`start` — one consumer task, initially idle — every trace of the
job-processing loop keeps at most one job in flight: every prefix of the
trace contains at most one more `takeJob` than `finishJob`, so the
processing intervals of any two jobs taken from the queue never
overlap. -/
theorem claim9_single_flight (q0 : List Nat) (evs : List RunnerEv)
    (c' : RunnerConfig) (h : RunnerTrace ⟨q0, [none]⟩ evs c')
    (p s : List RunnerEv) (hsplit : evs = p ++ s) :
    countTake p ≤ countFinish p + 1 := by
  subst hsplit
  obtain ⟨cmid, hp⟩ := runnerTrace_append h
  obtain ⟨hcount, hlen⟩ := runnerTrace_count hp
  have hbusy0 : busyCount ⟨q0, [none]⟩ = 0 := rfl
  have hle : busyCount cmid ≤ cmid.runners.length :=
    List.length_filter_le _ _
  have hone : (RunnerConfig.mk q0 [none]).runners.length = 1 := rfl
  rw [hlen, hone] at hle
  simp only [hbusy0, Nat.zero_add] at hcount
  omega

/-- Witness for C9: a concrete two-job trace of the single-runner
configuration, split after the first `takeJob`. -/
theorem claim9_single_flight_witness :
    countTake [RunnerEv.takeJob 7] ≤ countFinish [RunnerEv.takeJob 7] + 1 := by
  have htr : RunnerTrace ⟨[7, 8], [none]⟩
      [RunnerEv.takeJob 7, RunnerEv.finishJob 7, RunnerEv.takeJob 8,
        RunnerEv.finishJob 8] ⟨[], [none]⟩ :=
    RunnerTrace.cons (RunnerStep.take [7, 8] [none] 0 7 [8] rfl rfl)
      (RunnerTrace.cons (RunnerStep.finish [8] [some 7] 0 7 rfl)
        (RunnerTrace.cons (RunnerStep.take [8] [none] 0 8 [] rfl rfl)
          (RunnerTrace.cons (RunnerStep.finish [] [some 8] 0 8 rfl)
            (RunnerTrace.nil ⟨[], [none]⟩))))
  exact claim9_single_flight [7, 8] _ _ htr [RunnerEv.takeJob 7]
    [RunnerEv.finishJob 7, RunnerEv.takeJob 8, RunnerEv.finishJob 8] rfl

/-! ## The watch-snapshot codec

`db.set_category_enabled` stores the ids of the currently enabled watches
of a category in the `settings` table as a comma-separated string
(`",".join(str(id))`) and restores them by
`[int(part) for part in snapshot.split(",") if part]`.  The string
operations are modelled at the character level: a decimal rendering of a
`Nat`, Python `str.split(",")`, and `",".join`. -/

/-- The decimal digit characters produced by Python `str(int)`. -/
def digitChar (d : Nat) : Char :=
  match d with
  | 0 => '0' | 1 => '1' | 2 => '2' | 3 => '3' | 4 => '4'
  | 5 => '5' | 6 => '6' | 7 => '7' | 8 => '8' | _ => '9'

/-- Numeric value of a decimal digit character (as `int()` reads it). -/
def digitVal (c : Char) : Nat := c.toNat - 48

/-- Decimal rendering of `n`, most significant digit first, prepended to
`acc`. -/
def natReprAux (n : Nat) (acc : List Char) : List Char :=
  if n < 10 then digitChar (n % 10) :: acc
  else natReprAux (n / 10) (digitChar (n % 10) :: acc)
termination_by n
decreasing_by simp_wf; omega

/-- Model of Python `str(n)` for a natural number, as a character list. -/
def natReprCh (n : Nat) : List Char := natReprAux n []

/-- Model of Python `int(s)` for a string of decimal digits, as a left
fold over the characters. -/
def parseNatCh (cs : List Char) : Nat :=
  cs.foldl (fun a c => a * 10 + digitVal c) 0

/-- The place value `10 ^ (number of digits of n)`, used to state the
`parse ∘ render` round trip. -/
def reprBase (n : Nat) : Nat :=
  if n < 10 then 10 else 10 * reprBase (n / 10)
termination_by n
decreasing_by simp_wf; omega

theorem digitVal_digitChar (d : Nat) (h : d < 10) :
    digitVal (digitChar d) = d := by
  unfold digitChar
  interval_cases d <;> rfl

theorem digitChar_ne_comma (d : Nat) : digitChar d ≠ ',' := by
  unfold digitChar
  split <;> decide

theorem foldl_natReprAux (n : Nat) : ∀ (acc : List Char) (i : Nat),
    (natReprAux n acc).foldl (fun a c => a * 10 + digitVal c) i =
      acc.foldl (fun a c => a * 10 + digitVal c) (i * reprBase n + n) := by
  induction n using Nat.strong_induction_on with
  | _ n ih =>
    intro acc i
    rw [natReprAux, reprBase]
    by_cases h : n < 10
    · rw [if_pos h, if_pos h]
      simp only [List.foldl_cons]
      rw [digitVal_digitChar (n % 10) (Nat.mod_lt _ (by omega))]
      rw [Nat.mod_eq_of_lt h]
    · rw [if_neg h, if_neg h]
      rw [ih (n / 10) (by omega) (digitChar (n % 10) :: acc) i]
      simp only [List.foldl_cons]
      rw [digitVal_digitChar (n % 10) (Nat.mod_lt _ (by omega))]
      congr 1
      have hdm : n / 10 * 10 + n % 10 = n := by omega
      rw [Nat.add_mul, Nat.add_assoc, hdm]
      ring

theorem parseNatCh_natReprCh (n : Nat) : parseNatCh (natReprCh n) = n := by
  unfold parseNatCh natReprCh
  rw [foldl_natReprAux n [] 0]
  simp

theorem natReprAux_ne_nil (n : Nat) : ∀ acc : List Char, natReprAux n acc ≠ [] := by
  induction n using Nat.strong_induction_on with
  | _ n ih =>
    intro acc
    rw [natReprAux]
    by_cases h : n < 10
    · rw [if_pos h]; exact List.cons_ne_nil _ _
    · rw [if_neg h]; exact ih (n / 10) (by omega) _

theorem mem_natReprAux (n : Nat) : ∀ (acc : List Char) (c : Char),
    c ∈ natReprAux n acc → (∃ d, c = digitChar d) ∨ c ∈ acc := by
  induction n using Nat.strong_induction_on with
  | _ n ih =>
    intro acc c hc
    rw [natReprAux] at hc
    by_cases h : n < 10
    · rw [if_pos h] at hc
      rcases List.mem_cons.mp hc with h1 | h1
      · exact Or.inl ⟨n % 10, h1⟩
      · exact Or.inr h1
    · rw [if_neg h] at hc
      rcases ih (n / 10) (by omega) _ c hc with h1 | h1
      · exact Or.inl h1
      · rcases List.mem_cons.mp h1 with h2 | h2
        · exact Or.inl ⟨n % 10, h2⟩
        · exact Or.inr h2

theorem natReprCh_no_comma (n : Nat) : ∀ c ∈ natReprCh n, c ≠ ',' := by
  intro c hc
  rcases mem_natReprAux n [] c hc with ⟨d, hd⟩ | h
  · rw [hd]; exact digitChar_ne_comma d
  · cases h

/-- Model of Python `s.split(",")` (character level): `acc` is the
current chunk, reversed. -/
def splitCommaAux : List Char → List Char → List (List Char)
  | [], acc => [acc.reverse]
  | c :: cs, acc =>
    if c = ',' then acc.reverse :: splitCommaAux cs []
    else splitCommaAux cs (c :: acc)

/-- Model of Python `",".join(parts)` (character level). -/
def joinComma : List (List Char) → List Char
  | [] => []
  | [x] => x
  | x :: xs => x ++ ',' :: joinComma xs

theorem splitCommaAux_no_comma (xs : List Char) :
    ∀ acc : List Char, (∀ c ∈ xs, c ≠ ',') →
    splitCommaAux xs acc = [acc.reverse ++ xs] := by
  induction xs with
  | nil => intro acc _; simp [splitCommaAux]
  | cons c cs ih =>
    intro acc h
    have hc : c ≠ ',' := h c (List.mem_cons_self c cs)
    rw [splitCommaAux, if_neg hc, ih (c :: acc) (fun x hx => h x (List.mem_cons_of_mem c hx))]
    simp

theorem splitCommaAux_append (xs ys : List Char) :
    ∀ acc : List Char, (∀ c ∈ xs, c ≠ ',') →
    splitCommaAux (xs ++ ',' :: ys) acc =
      (acc.reverse ++ xs) :: splitCommaAux ys [] := by
  induction xs with
  | nil =>
    intro acc _
    rw [List.nil_append, splitCommaAux, if_pos rfl]
    simp
  | cons c cs ih =>
    intro acc h
    have hc : c ≠ ',' := h c (List.mem_cons_self c cs)
    rw [List.cons_append, splitCommaAux, if_neg hc,
      ih (c :: acc) (fun x hx => h x (List.mem_cons_of_mem c hx))]
    simp

theorem splitCommaAux_joinComma (ls : List (List Char))
    (h : ∀ l ∈ ls, ∀ c ∈ l, c ≠ ',') (hne : ls ≠ []) :
    splitCommaAux (joinComma ls) [] = ls := by
  induction ls with
  | nil => exact absurd rfl hne
  | cons x xs ih =>
    cases xs with
    | nil =>
      show splitCommaAux (joinComma [x]) [] = [x]
      rw [joinComma, splitCommaAux_no_comma x [] (h x (List.mem_cons_self x []))]
      simp
    | cons y ys =>
      rw [joinComma, splitCommaAux_append x (joinComma (y :: ys)) []
        (h x (List.mem_cons_self x (y :: ys)))]
      have heq := ih (fun l hl => h l (List.mem_cons_of_mem x hl))
        (fun hfalse => List.noConfusion hfalse)
      rw [heq]
      · simp
      · exact fun hfalse => List.noConfusion hfalse

/-- Model of the snapshot encoder
`",".join(str(w["id"]) for enabled watches)`. -/
def encodeIds (ids : List Nat) : String :=
  ⟨joinComma (ids.map natReprCh)⟩

/-- Model of the snapshot decoder
`[int(part) for part in snapshot.split(",") if part]`. -/
def decodeIds (s : String) : List Nat :=
  ((splitCommaAux s.data []).filter (fun part => ¬part.isEmpty)).map parseNatCh

theorem decodeIds_encodeIds (ids : List Nat) : decodeIds (encodeIds ids) = ids := by
  cases ids with
  | nil => rfl
  | cons i is =>
    unfold decodeIds encodeIds
    rw [show (String.mk (joinComma ((i :: is).map natReprCh))).data =
      joinComma ((i :: is).map natReprCh) from rfl]
    rw [splitCommaAux_joinComma ((i :: is).map natReprCh)
      (by
        intro l hl c hc
        obtain ⟨n, _, hn⟩ := List.mem_map.mp hl
        exact natReprCh_no_comma n c (hn ▸ hc))
      (by simp)]
    rw [List.filter_eq_self.mpr
      (by
        intro l hl
        obtain ⟨n, _, hn⟩ := List.mem_map.mp hl
        subst hn
        simp [List.isEmpty_iff, natReprAux_ne_nil n [], natReprCh])]
    rw [List.map_map]
    have : parseNatCh ∘ natReprCh = id := by
      funext n
      exact parseNatCh_natReprCh n
    rw [this, List.map_id]

/-! ## Category enable/disable with watch snapshots

`db.set_category_enabled(key, on)` (storage/db.py lines 257–283).
Disabling stores the ids of the currently enabled watches of the category
under the settings key `category_snapshot:<key>` (only when that id list
is non-empty) and disables all watches of the category.  Enabling reads
the snapshot; when it is a truthy string it re-enables exactly the watches
whose ids it lists and deletes the snapshot key. -/

/-- The per-category settings key used for the snapshot. -/
def snapshotKey (key : String) : String := "category_snapshot:" ++ key

/-- The persistent state touched by `set_category_enabled`. -/
structure StoreState where
  categories : List CategoryRow
  watches : List WatchRow
  settings : String → Option String

/-- Model of `db.settings_set` on the settings function. -/
def settingsSetF (s : String → Option String) (k v : String) :
    String → Option String :=
  fun q => if q = k then some v else s q

/-- Model of `db.settings_delete` on the settings function. -/
def settingsDeleteF (s : String → Option String) (k : String) :
    String → Option String :=
  fun q => if q = k then none else s q

/-- Model of `db.get_watches_by_category` (the rows, in table order). -/
def getWatchesByCat (st : StoreState) (key : String) : List WatchRow :=
  st.watches.filter (fun w => w.categoryKey == key)

/-- The `on = False` branch of `set_category_enabled`: disable the
category row, snapshot the ids of the currently enabled watches of the
category (only when that list is non-empty, matching `if enabled_ids:`),
then disable all its watches.  (`get_watches_by_category` is called after
the category-row update in the Python code, but the watch rows it returns
do not depend on the category's `enabled` flag, so it is read from `st`
here.) -/
def disableCategory (st : StoreState) (key : String) : StoreState :=
  { st with
    categories := st.categories.map (fun c =>
      if c.key = key then { c with enabled := false } else c)
    settings :=
      (if (((getWatchesByCat st key).filter (fun w => w.enabled)).map
            (fun w => w.id)).isEmpty
       then st.settings
       else settingsSetF st.settings (snapshotKey key)
         (encodeIds (((getWatchesByCat st key).filter (fun w => w.enabled)).map
           (fun w => w.id))))
    watches := st.watches.map (fun w =>
      if w.categoryKey = key then { w with enabled := false } else w) }

/-- The `on = True` branch of `set_category_enabled`: enable the category
row; when a truthy (non-`None`, non-empty) snapshot exists, re-enable the
watches whose ids it lists (skipping the `UPDATE` when the id list is
empty, matching the `if ids:` guard) and delete the snapshot key. -/
def enableCategory (st : StoreState) (key : String) : StoreState :=
  if optTruthy (st.settings (snapshotKey key)) then
    { st with
      categories := st.categories.map (fun c =>
        if c.key = key then { c with enabled := true } else c)
      watches :=
        (if (decodeIds ((st.settings (snapshotKey key)).getD "")).isEmpty
         then st.watches
         else st.watches.map (fun w =>
           if w.id ∈ decodeIds ((st.settings (snapshotKey key)).getD "")
           then { w with enabled := true } else w))
      settings := settingsDeleteF st.settings (snapshotKey key) }
  else
    { st with categories := st.categories.map (fun c =>
        if c.key = key then { c with enabled := true } else c) }

/-- Model of `db.set_category_enabled`. -/
def setCategoryEnabled (st : StoreState) (key : String) (flag : Bool) : StoreState :=
  if flag then enableCategory st key else disableCategory st key

theorem map_eq_self_of {α : Type} (l : List α) (f : α → α)
    (h : ∀ x ∈ l, f x = x) : l.map f = l := by
  have h' : ∀ x ∈ l, f x = id x := h
  exact (List.map_congr_left h').trans (List.map_id l)

theorem encodeIds_ne_empty (ids : List Nat) (h : ids ≠ []) :
    encodeIds ids ≠ "" := by
  cases ids with
  | nil => exact absurd rfl h
  | cons i is =>
    intro hcontra
    have hdata : joinComma ((i :: is).map natReprCh) = [] := by
      have := congrArg String.data hcontra
      exact this
    cases is with
    | nil =>
      exact natReprAux_ne_nil i [] hdata
    | cons j js =>
      rw [List.map_cons, joinComma] at hdata
      · exact absurd (List.append_eq_nil.mp hdata).2 (List.cons_ne_nil _ _)
      · exact fun hfalse => List.noConfusion hfalse

theorem disableCategory_watches (st : StoreState) (key : String) :
    (disableCategory st key).watches = st.watches.map (fun w =>
      if w.categoryKey = key then { w with enabled := false } else w) := rfl

theorem disableCategory_settings (st : StoreState) (key : String) :
    (disableCategory st key).settings =
      (if (((getWatchesByCat st key).filter (fun w => w.enabled)).map
            (fun w => w.id)).isEmpty
       then st.settings
       else settingsSetF st.settings (snapshotKey key)
         (encodeIds (((getWatchesByCat st key).filter (fun w => w.enabled)).map
           (fun w => w.id)))) := rfl

theorem enableCategory_none (st : StoreState) (key : String)
    (h : st.settings (snapshotKey key) = none) :
    enableCategory st key =
      { st with categories := st.categories.map (fun c =>
          if c.key = key then { c with enabled := true } else c) } := by
  simp only [enableCategory, h]
  rfl

theorem enableCategory_truthy (st : StoreState) (key snap : String)
    (h : st.settings (snapshotKey key) = some snap) (hne : snap ≠ "")
    (hid : (decodeIds snap).isEmpty = false) :
    enableCategory st key =
      { st with
        categories := st.categories.map (fun c =>
          if c.key = key then { c with enabled := true } else c)
        watches := st.watches.map (fun w =>
          if w.id ∈ decodeIds snap then { w with enabled := true } else w)
        settings := settingsDeleteF st.settings (snapshotKey key) } := by
  simp only [enableCategory, h, Option.getD, optTruthy, hid]
  simp [hne]

theorem watch_off_eq (w : WatchRow) (h : w.enabled = false) :
    { w with enabled := false } = w := by
  cases w; simp_all

theorem watch_on_eq (w : WatchRow) (h : w.enabled = true) :
    { w with enabled := true } = w := by
  cases w; simp_all

/-- Counterexample to C2 as stated: a category with one disabled watch but
a stale `category_snapshot` entry (left by an earlier disable/disable
sequence, whose second disable found nothing enabled and therefore did not
overwrite it).  Disabling then enabling the category re-enables watch 1,
which was disabled before the disable — the round trip does not restore
the prior enabled set and the claim fails without a precondition on the
snapshot key. -/
theorem claim2_snapshot_roundtrip_counterexample :
    ((setCategoryEnabled (setCategoryEnabled
        ⟨[⟨"CAT", "t", "u", true, "OK", none, none⟩],
          [⟨1, "CAT", "kosice", false, "PAUSED", none, none, none, none⟩],
          fun k => if k = "category_snapshot:CAT" then some "1" else none⟩
        "CAT" false) "CAT" true).watches.map (fun w => w.enabled)) = [true] ∧
    (([⟨1, "CAT", "kosice", false, "PAUSED", none, none, none, none⟩] :
      List WatchRow).map (fun w => w.enabled)) = [false] := by
  constructor
  · rfl
  · rfl

/-- C2 (amended): provided the settings table holds no (stale) snapshot
entry for the category before the disable — true in particular whenever
the category is freshly toggled outside nested disable cycles — and watch
ids are unique (the table's primary key), disabling then re-enabling a
category with no intervening watch changes restores exactly the watch
rows that existed before (so exactly the previously enabled watches of
the category are enabled again, all other watches of the category remain
disabled), and the snapshot settings key is absent afterwards. -/
theorem claim2_snapshot_roundtrip_amended (st : StoreState) (key : String)
    (hsnap : st.settings (snapshotKey key) = none)
    (hnodup : (st.watches.map (fun w => w.id)).Nodup) :
    (setCategoryEnabled (setCategoryEnabled st key false) key true).watches =
      st.watches ∧
    (setCategoryEnabled (setCategoryEnabled st key false) key true).settings
      (snapshotKey key) = none := by
  have hsetc : setCategoryEnabled st key false = disableCategory st key := rfl
  have hsete : ∀ s : StoreState,
      setCategoryEnabled s key true = enableCategory s key := fun s => rfl
  rw [hsetc, hsete]
  by_cases hEnil : (((getWatchesByCat st key).filter (fun w => w.enabled)).map
      (fun w => w.id)).isEmpty
  · -- no watch of the category was enabled: nothing is snapshotted
    have halloff : ∀ w ∈ st.watches, w.categoryKey = key → w.enabled = false := by
      intro w hw hk
      have hnil : ((getWatchesByCat st key).filter (fun w => w.enabled)) = [] := by
        have := List.isEmpty_iff.mp hEnil
        exact List.map_eq_nil_iff.mp this
      have := List.filter_eq_nil_iff.mp hnil w
      by_contra hcontra
      exact this (List.mem_filter.mpr ⟨hw, by simp [hk]⟩) (by simp_all)
    have hdis : (disableCategory st key).watches = st.watches := by
      rw [disableCategory_watches]
      apply map_eq_self_of
      intro w hw
      by_cases hk : w.categoryKey = key
      · rw [if_pos hk]
        exact watch_off_eq w (halloff w hw hk)
      · rw [if_neg hk]
    have hdset : (disableCategory st key).settings (snapshotKey key) = none := by
      rw [disableCategory_settings, if_pos hEnil]
      exact hsnap
    rw [enableCategory_none _ _ hdset]
    exact ⟨hdis, hdset⟩
  · -- some watches were enabled: the snapshot is written and then restored
    have hEne : (((getWatchesByCat st key).filter (fun w => w.enabled)).map
        (fun w => w.id)) ≠ [] := by
      intro hcontra
      rw [hcontra] at hEnil
      exact hEnil rfl
    have hdset : (disableCategory st key).settings (snapshotKey key) =
        some (encodeIds (((getWatchesByCat st key).filter (fun w => w.enabled)).map
          (fun w => w.id))) := by
      rw [disableCategory_settings, if_neg hEnil]
      simp [settingsSetF]
    have hne : encodeIds (((getWatchesByCat st key).filter (fun w => w.enabled)).map
        (fun w => w.id)) ≠ "" := encodeIds_ne_empty _ hEne
    have hdec : decodeIds (encodeIds (((getWatchesByCat st key).filter
        (fun w => w.enabled)).map (fun w => w.id))) =
        ((getWatchesByCat st key).filter (fun w => w.enabled)).map (fun w => w.id) :=
      decodeIds_encodeIds _
    have hid : (decodeIds (encodeIds (((getWatchesByCat st key).filter
        (fun w => w.enabled)).map (fun w => w.id)))).isEmpty = false := by
      rw [hdec]
      cases hcase : ((getWatchesByCat st key).filter (fun w => w.enabled)).map
        (fun w => w.id) with
      | nil => exact absurd hcase hEne
      | cons a l => rfl
    rw [enableCategory_truthy _ _ _ hdset hne hid]
    constructor
    · show ((disableCategory st key).watches.map (fun w =>
        if w.id ∈ decodeIds (encodeIds (((getWatchesByCat st key).filter
          (fun w => w.enabled)).map (fun w => w.id)))
        then { w with enabled := true } else w)) = st.watches
      rw [hdec, disableCategory_watches, List.map_map]
      apply map_eq_self_of
      intro w hw
      simp only [Function.comp]
      by_cases hmem : w.id ∈ ((getWatchesByCat st key).filter
          (fun w => w.enabled)).map (fun w => w.id)
      · obtain ⟨w', hw', hid'⟩ := List.mem_map.mp hmem
        have hw'w : w' ∈ st.watches :=
          List.mem_of_mem_filter (List.mem_of_mem_filter hw')
        have heqw : w' = w :=
          List.inj_on_of_nodup_map hnodup hw'w hw hid'
        obtain ⟨hw'cat, hw'en⟩ := List.mem_filter.mp hw'
        have hcat : w.categoryKey = key := by
          have := (List.mem_filter.mp hw'cat).2
          rw [heqw] at this
          simpa using this
        have hen' : w.enabled = true := by
          rw [heqw] at hw'en
          simpa using hw'en
        rw [if_pos hcat]
        have hsameid : ({ w with enabled := false } : WatchRow).id = w.id := rfl
        rw [if_pos (by rw [hsameid]; exact hmem)]
        have hsquash : ({ ({ w with enabled := false } : WatchRow) with
            enabled := true } : WatchRow) = { w with enabled := true } := rfl
        rw [hsquash]
        exact watch_on_eq w hen'
      · by_cases hk : w.categoryKey = key
        · have hoff : w.enabled = false := by
            by_contra hcontra
            have hen'' : w.enabled = true := by
              cases hcase : w.enabled
              · exact absurd hcase hcontra
              · rfl
            apply hmem
            apply List.mem_map.mpr
            exact ⟨w, List.mem_filter.mpr ⟨List.mem_filter.mpr ⟨hw, by simp [hk]⟩,
              by simp [hen'']⟩, rfl⟩
          rw [if_pos hk]
          have hsameid : ({ w with enabled := false } : WatchRow).id = w.id := rfl
          rw [if_neg (by rw [hsameid]; exact hmem)]
          exact watch_off_eq w hoff
        · rw [if_neg hk]
          rw [if_neg (by exact hmem)]
    · show settingsDeleteF (disableCategory st key).settings (snapshotKey key)
        (snapshotKey key) = none
      simp [settingsDeleteF]

/-- Witness for the amended C2: a two-watch category (one enabled, one
disabled) with no snapshot entry round-trips to exactly the same watch
rows, with the snapshot key absent. -/
theorem claim2_snapshot_roundtrip_amended_witness :
    (setCategoryEnabled (setCategoryEnabled
        ⟨[⟨"CAT", "t", "u", true, "OK", none, none⟩],
          [⟨1, "CAT", "kosice", true, "OK", none, none, none, none⟩,
           ⟨2, "CAT", "nitra", false, "PAUSED", none, none, none, none⟩],
          fun _ => none⟩
        "CAT" false) "CAT" true).watches =
      [⟨1, "CAT", "kosice", true, "OK", none, none, none, none⟩,
       ⟨2, "CAT", "nitra", false, "PAUSED", none, none, none, none⟩] ∧
    (setCategoryEnabled (setCategoryEnabled
        ⟨[⟨"CAT", "t", "u", true, "OK", none, none⟩],
          [⟨1, "CAT", "kosice", true, "OK", none, none, none, none⟩,
           ⟨2, "CAT", "nitra", false, "PAUSED", none, none, none, none⟩],
          fun _ => none⟩
        "CAT" false) "CAT" true).settings (snapshotKey "CAT") = none := by
  exact claim2_snapshot_roundtrip_amended
    ⟨[⟨"CAT", "t", "u", true, "OK", none, none⟩],
      [⟨1, "CAT", "kosice", true, "OK", none, none, none, none⟩,
       ⟨2, "CAT", "nitra", false, "PAUSED", none, none, none, none⟩],
      fun _ => none⟩
    "CAT" rfl (by decide)

/-! ## The priority queue

`asyncio.PriorityQueue` stores jobs in a CPython `heapq` binary heap
(`_put = heappush`, `_get = heappop`).  `_Job` is a
`@dataclass(order=True)` whose every field except `priority` is
`compare=False`, so two jobs compare solely by `priority` — equal-priority
jobs compare as equal and the heap's array order decides ties.  The heap
operations below are the reference (pure-Python) `heapq` algorithms
`heappush`/`heappop`/`_siftdown`/`_siftup`, written over `Array` with a
structural fuel argument chosen at each call site to be provably
sufficient (the loops strictly decrease/increase the position, so
`_siftdown` makes at most `pos` steps and `_siftup` at most `size - pos`;
when the fuel reaches zero the loop condition is already false and the
fuel branch returns the same value the loop would). -/

/-- A scheduler `_Job`: only `priority` takes part in comparisons; `seq`
stands for the `compare=False` fields (`created_at`, kind, …) and records
the enqueue order. -/
structure SchedJob where
  priority : Nat
  seq : Nat
deriving DecidableEq, Repr

/-- The dataclass-generated `__lt__`: compare by `priority` alone. -/
def jobLt (a b : SchedJob) : Bool := a.priority < b.priority

/-- `heap[i]`, with an arbitrary default out of range (CPython indexing is
always in range in these algorithms). -/
def hget (a : Array SchedJob) (i : Nat) : SchedJob :=
  if h : i < a.size then a[i] else ⟨0, 0⟩

/-- `heap[i] = v` (no-op out of range, never exercised in range-correct
calls). -/
def hset (a : Array SchedJob) (i : Nat) (v : SchedJob) : Array SchedJob :=
  if h : i < a.size then a.set ⟨i, h⟩ v else a

@[simp] theorem hset_size (a : Array SchedJob) (i : Nat) (v : SchedJob) :
    (hset a i v).size = a.size := by
  unfold hset; split <;> simp

theorem hget_hset_self (a : Array SchedJob) (i : Nat) (v : SchedJob)
    (h : i < a.size) : hget (hset a i v) i = v := by
  simp [hget, hset, h]

theorem hget_hset_other (a : Array SchedJob) (i j : Nat) (v : SchedJob)
    (hne : i ≠ j) : hget (hset a i v) j = hget a j := by
  unfold hget hset
  by_cases hi : i < a.size
  · simp only [dif_pos hi]
    by_cases hj : j < a.size
    · rw [dif_pos (by simpa using hj), dif_pos hj]
      exact Array.getElem_set_ne a ⟨i, hi⟩ v _ (by simpa using hne)
    · rw [dif_neg (by simpa using hj), dif_neg hj]
  · simp only [dif_neg hi]

theorem hget_push_lt (a : Array SchedJob) (x : SchedJob) (i : Nat)
    (h : i < a.size) : hget (a.push x) i = hget a i := by
  simp only [hget, Array.size_push, dif_pos h, dif_pos (Nat.lt_succ_of_lt h)]
  exact Array.getElem_push_lt a x i h

theorem hget_push_eq (a : Array SchedJob) (x : SchedJob) :
    hget (a.push x) a.size = x := by
  simp [hget]

theorem hget_pop_lt (a : Array SchedJob) (i : Nat) (h : i < a.size - 1) :
    hget a.pop i = hget a i := by
  simp only [hget, Array.size_pop, dif_pos h, dif_pos (by omega : i < a.size)]
  exact Array.getElem_pop a i (by simpa using h)

/-- `heapq._siftdown(heap, startpos, pos)` with `newitem = heap[pos]`
saved: move parents down along the path to the root until `newitem` fits,
then write it.  `fuel ≥ pos` makes the fuel branch unreachable (at fuel 0,
`pos = 0` and the loop condition `startpos < pos` is false anyway). -/
def siftdownLoopF (fuel : Nat) (a : Array SchedJob) (startpos pos : Nat)
    (newitem : SchedJob) : Array SchedJob :=
  match fuel with
  | 0 => hset a pos newitem
  | fuel + 1 =>
    if startpos < pos then
      let parentpos := (pos - 1) / 2
      let parent := hget a parentpos
      if jobLt newitem parent then
        siftdownLoopF fuel (hset a pos parent) startpos parentpos newitem
      else hset a pos newitem
    else hset a pos newitem

/-- `heapq._siftdown(heap, startpos, pos)`. -/
def siftdownFrom (a : Array SchedJob) (startpos pos : Nat) : Array SchedJob :=
  siftdownLoopF pos a startpos pos (hget a pos)

/-- `heapq.heappush`. -/
def heappush (a : Array SchedJob) (x : SchedJob) : Array SchedJob :=
  siftdownFrom (a.push x) 0 ((a.push x).size - 1)

/-- The bubbling loop of `heapq._siftup`: walk down, always moving the
smaller child up (the right child on ties, per
`if rightpos < endpos and not heap[childpos] < heap[rightpos]`), until
reaching a leaf; returns the array and the leaf position.  `fuel ≥
size - pos` makes the fuel branch unreachable. -/
def siftupLoopF (fuel : Nat) (a : Array SchedJob) (pos : Nat) :
    Array SchedJob × Nat :=
  match fuel with
  | 0 => (a, pos)
  | fuel + 1 =>
    if 2 * pos + 1 < a.size then
      let c0 := 2 * pos + 1
      let cp := if c0 + 1 < a.size ∧ ¬jobLt (hget a c0) (hget a (c0 + 1))
        then c0 + 1 else c0
      siftupLoopF fuel (hset a pos (hget a cp)) cp
    else (a, pos)

/-- `heapq._siftup(heap, pos)`: bubble the smaller child up to a leaf,
put the saved `newitem` there, and sift it down towards `startpos = pos`. -/
def siftup (a : Array SchedJob) (pos : Nat) : Array SchedJob :=
  let newitem := hget a pos
  let r := siftupLoopF a.size a pos
  siftdownFrom (hset r.1 r.2 newitem) pos r.2

/-- `heapq.heappop`: pop the last element; if the heap is still non-empty,
return the root, move the last element to the root and sift it up.
Returns `none` on an empty heap (where CPython raises `IndexError`;
`asyncio`'s consumer never pops an empty queue). -/
def heappop (a : Array SchedJob) : Option (SchedJob × Array SchedJob) :=
  if a.size = 0 then none
  else
    let lastelt := hget a (a.size - 1)
    let a1 := a.pop
    if a1.size = 0 then some (lastelt, a1)
    else some (hget a1 0, siftup (hset a1 0 lastelt) 0)

/-- Enqueue jobs in order. -/
def pushList (a : Array SchedJob) (js : List SchedJob) : Array SchedJob :=
  js.foldl heappush a

/-- Dequeue up to `n` jobs. -/
def popAllAux : Nat → Array SchedJob → List SchedJob
  | 0, _ => []
  | n + 1, a =>
    match heappop a with
    | none => []
    | some (j, a') => j :: popAllAux n a'

/-- Dequeue every job. -/
def popAll (a : Array SchedJob) : List SchedJob := popAllAux a.size a

/-- Counterexample to C8 as stated: four equal-priority jobs enqueued in
order 1,2,3,4 are dequeued in order 1,3,2,4 — the job enqueued third is
processed before the job enqueued second, so equal-priority jobs are not
processed in FIFO order (the heap compares jobs only by `priority`, and
`heapq` does not preserve insertion order among equal elements). -/
theorem claim8_fifo_counterexample :
    popAll (pushList #[] [⟨1, 1⟩, ⟨1, 2⟩, ⟨1, 3⟩, ⟨1, 4⟩]) =
      [⟨1, 1⟩, ⟨1, 3⟩, ⟨1, 2⟩, ⟨1, 4⟩] := by
  decide

/-- The priority preorder on jobs (`x` may come out before `y`). -/
def leP (x y : SchedJob) : Prop := x.priority ≤ y.priority

theorem leP_refl (x : SchedJob) : leP x x := Nat.le_refl _

theorem leP_trans {x y z : SchedJob} (h1 : leP x y) (h2 : leP y z) : leP x z :=
  Nat.le_trans h1 h2

theorem leP_of_jobLt {x y : SchedJob} (h : jobLt x y = true) : leP x y := by
  simp only [jobLt, decide_eq_true_eq] at h
  exact Nat.le_of_lt h

theorem leP_of_not_jobLt {x y : SchedJob} (h : ¬jobLt x y = true) : leP y x := by
  simp only [jobLt, decide_eq_true_eq] at h
  exact Nat.le_of_not_lt h

/-- The binary min-heap invariant of `heapq`: every non-root entry is at
least its parent in the priority preorder. -/
def isHeap (a : Array SchedJob) : Prop :=
  ∀ j, 0 < j → j < a.size → leP (hget a ((j - 1) / 2)) (hget a j)

theorem hset_pos_isHeap (a : Array SchedJob) (pos : Nat) (newitem : SchedJob)
    (hpos : pos < a.size)
    (hA : ∀ c, 0 < c → c < a.size → c ≠ pos →
      leP (hget a ((c - 1) / 2)) (hget a c))
    (hB : ∀ c, 0 < c → c < a.size → (c - 1) / 2 = pos → leP newitem (hget a c))
    (hparent : 0 < pos → leP (hget a ((pos - 1) / 2)) newitem) :
    isHeap (hset a pos newitem) := by
  intro j hj hjs
  rw [hset_size] at hjs
  by_cases hjp : j = pos
  · subst hjp
    rw [hget_hset_self a j newitem hjs,
      hget_hset_other a j ((j - 1) / 2) newitem (by omega)]
    exact hparent hj
  · by_cases hpar : (j - 1) / 2 = pos
    · rw [hpar, hget_hset_self a pos newitem hpos,
        hget_hset_other a pos j newitem (fun hh => hjp hh.symm)]
      exact hB j hj hjs hpar
    · rw [hget_hset_other a pos _ newitem (fun hh => hpar hh.symm),
        hget_hset_other a pos j newitem (fun hh => hjp hh.symm)]
      exact hA j hj hjs hjp

theorem siftdownLoopF_isHeap (fuel : Nat) :
    ∀ (a : Array SchedJob) (pos : Nat) (newitem : SchedJob),
    pos ≤ fuel → pos < a.size →
    (∀ c, 0 < c → c < a.size → c ≠ pos →
      leP (hget a ((c - 1) / 2)) (hget a c)) →
    (∀ c, 0 < c → c < a.size → (c - 1) / 2 = pos → leP newitem (hget a c)) →
    (0 < pos → ∀ c, 0 < c → c < a.size → (c - 1) / 2 = pos →
      leP (hget a ((pos - 1) / 2)) (hget a c)) →
    isHeap (siftdownLoopF fuel a 0 pos newitem) := by
  induction fuel with
  | zero =>
    intro a pos newitem hfuel hpos hA hB _
    have hpos0 : pos = 0 := Nat.le_zero.mp hfuel
    subst hpos0
    exact hset_pos_isHeap a 0 newitem hpos hA hB (fun hcontra => absurd hcontra (by omega))
  | succ fuel ih =>
    intro a pos newitem hfuel hpos hA hB hC
    show isHeap (siftdownLoopF (fuel + 1) a 0 pos newitem)
    rw [siftdownLoopF]
    by_cases hgt : 0 < pos
    · rw [if_pos hgt]
      by_cases hlt : jobLt newitem (hget a ((pos - 1) / 2))
      · rw [if_pos hlt]
        refine ih (hset a pos (hget a ((pos - 1) / 2))) ((pos - 1) / 2) newitem
          (by omega) (by rw [hset_size]; omega) ?_ ?_ ?_
        · -- hA for the array with the parent moved down into pos
          intro c hc hcs hcp
          rw [hset_size] at hcs
          by_cases hcpos : c = pos
          · subst hcpos
            rw [hget_hset_self a c _ hpos,
              hget_hset_other a c ((c - 1) / 2) _ (by omega)]
            exact leP_refl _
          · by_cases hcpar : (c - 1) / 2 = pos
            · rw [hcpar, hget_hset_self a pos _ hpos,
                hget_hset_other a pos c _ (fun hh => hcpos hh.symm)]
              exact hC hgt c hc hcs hcpar
            · rw [hget_hset_other a pos _ _ (fun hh => hcpar hh.symm),
                hget_hset_other a pos c _ (fun hh => hcpos hh.symm)]
              exact hA c hc hcs hcpos
        · -- hB: newitem is below every child of the new hole
          intro c hc hcs hcpar
          rw [hset_size] at hcs
          by_cases hcpos : c = pos
          · subst hcpos
            rw [hget_hset_self a c _ hpos]
            exact leP_of_jobLt hlt
          · rw [hget_hset_other a pos c _ (fun hh => hcpos hh.symm)]
            have hchain := hA c hc hcs hcpos
            rw [hcpar] at hchain
            exact leP_trans (leP_of_jobLt hlt) hchain
        · -- hC: the grandparent is below every child of the new hole
          intro hp c hc hcs hcpar
          rw [hset_size] at hcs
          have hgne : pos ≠ ((pos - 1) / 2 - 1) / 2 := by omega
          by_cases hcpos : c = pos
          · subst hcpos
            rw [hget_hset_self a c _ hpos, hget_hset_other a c _ _ hgne]
            exact hA ((c - 1) / 2) hp (by omega) (by omega)
          · rw [hget_hset_other a pos c _ (fun hh => hcpos hh.symm),
              hget_hset_other a pos _ _ hgne]
            have h1 := hA ((pos - 1) / 2) hp (by omega) (by omega)
            have h2 := hA c hc hcs hcpos
            rw [hcpar] at h2
            exact leP_trans h1 h2
      · rw [if_neg hlt]
        exact hset_pos_isHeap a pos newitem hpos hA hB
          (fun _ => leP_of_not_jobLt hlt)
    · rw [if_neg hgt]
      exact hset_pos_isHeap a pos newitem hpos hA hB
        (fun hcontra => absurd hcontra hgt)

theorem siftupLoopF_spec (fuel : Nat) :
    ∀ (a : Array SchedJob) (pos : Nat),
    a.size ≤ fuel + pos → pos < a.size →
    (∀ c, 0 < c → c < a.size → (c - 1) / 2 ≠ pos → c ≠ pos →
      leP (hget a ((c - 1) / 2)) (hget a c)) →
    (0 < pos → ∀ c, 0 < c → c < a.size → (c - 1) / 2 = pos →
      leP (hget a ((pos - 1) / 2)) (hget a c)) →
    (siftupLoopF fuel a pos).1.size = a.size ∧
    (siftupLoopF fuel a pos).2 < a.size ∧
    a.size ≤ 2 * (siftupLoopF fuel a pos).2 + 1 ∧
    (∀ c, 0 < c → c < a.size → (c - 1) / 2 ≠ (siftupLoopF fuel a pos).2 →
      c ≠ (siftupLoopF fuel a pos).2 →
      leP (hget (siftupLoopF fuel a pos).1 ((c - 1) / 2))
        (hget (siftupLoopF fuel a pos).1 c)) := by
  induction fuel with
  | zero =>
    intro a pos hsz hpos _ _
    exact absurd hpos (by omega)
  | succ fuel ih =>
    intro a pos hsz hpos hA hBup
    have step : ∀ cp : Nat, (cp - 1) / 2 = pos → cp < a.size → pos < cp →
        (∀ s, 0 < s → s < a.size → (s - 1) / 2 = pos → s ≠ cp →
          leP (hget a cp) (hget a s)) →
        (siftupLoopF fuel (hset a pos (hget a cp)) cp).1.size = a.size ∧
        (siftupLoopF fuel (hset a pos (hget a cp)) cp).2 < a.size ∧
        a.size ≤ 2 * (siftupLoopF fuel (hset a pos (hget a cp)) cp).2 + 1 ∧
        (∀ c, 0 < c → c < a.size →
          (c - 1) / 2 ≠ (siftupLoopF fuel (hset a pos (hget a cp)) cp).2 →
          c ≠ (siftupLoopF fuel (hset a pos (hget a cp)) cp).2 →
          leP (hget (siftupLoopF fuel (hset a pos (hget a cp)) cp).1 ((c - 1) / 2))
            (hget (siftupLoopF fuel (hset a pos (hget a cp)) cp).1 c)) := by
      intro cp hcp1 hcplt hposcp hmin
      have hA' : ∀ c, 0 < c → c < (hset a pos (hget a cp)).size →
          (c - 1) / 2 ≠ cp → c ≠ cp →
          leP (hget (hset a pos (hget a cp)) ((c - 1) / 2))
            (hget (hset a pos (hget a cp)) c) := by
        intro c hc0 hcs hcpar hccp
        rw [hset_size] at hcs
        by_cases hcpos : c = pos
        · subst hcpos
          rw [hget_hset_self a c _ hpos, hget_hset_other a c _ _ (by omega)]
          exact hBup hc0 cp (by omega) hcplt hcp1
        · by_cases hpc : (c - 1) / 2 = pos
          · rw [hpc, hget_hset_self a pos _ hpos,
              hget_hset_other a pos c _ (fun hh => hcpos hh.symm)]
            exact hmin c hc0 hcs hpc hccp
          · rw [hget_hset_other a pos _ _ (fun hh => hpc hh.symm),
              hget_hset_other a pos c _ (fun hh => hcpos hh.symm)]
            exact hA c hc0 hcs hpc hcpos
      have hBup' : 0 < cp → ∀ c, 0 < c → c < (hset a pos (hget a cp)).size →
          (c - 1) / 2 = cp →
          leP (hget (hset a pos (hget a cp)) ((cp - 1) / 2))
            (hget (hset a pos (hget a cp)) c) := by
        intro _ c hc0 hcs hcpar
        rw [hset_size] at hcs
        rw [hcp1, hget_hset_self a pos _ hpos,
          hget_hset_other a pos c _ (by omega)]
        have hchain := hA c hc0 hcs (by omega) (by omega)
        rw [hcpar] at hchain
        exact hchain
      have hres := ih (hset a pos (hget a cp)) cp (by rw [hset_size]; omega)
        (by rw [hset_size]; exact hcplt) hA' hBup'
      rw [hset_size] at hres
      exact hres
    show (siftupLoopF (fuel + 1) a pos).1.size = a.size ∧ _
    simp only [siftupLoopF]
    by_cases hc : 2 * pos + 1 < a.size
    · rw [if_pos hc]
      by_cases hr : 2 * pos + 1 + 1 < a.size ∧
          ¬jobLt (hget a (2 * pos + 1)) (hget a (2 * pos + 1 + 1))
      · rw [if_pos hr]
        apply step (2 * pos + 1 + 1) (by omega) hr.1 (by omega)
        intro s hs0 hss hspar hscp
        have hseq : s = 2 * pos + 1 := by omega
        subst hseq
        exact leP_of_not_jobLt hr.2
      · rw [if_neg hr]
        apply step (2 * pos + 1) (by omega) hc (by omega)
        intro s hs0 hss hspar hscp
        have hseq : s = 2 * pos + 1 + 1 := by omega
        subst hseq
        have hjl : jobLt (hget a (2 * pos + 1)) (hget a (2 * pos + 1 + 1)) = true := by
          by_contra hcontra
          exact hr ⟨hss, hcontra⟩
        exact leP_of_jobLt hjl
    · rw [if_neg hc]
      exact ⟨rfl, hpos, by omega, fun c hc0 hcs h1 h2 => hA c hc0 hcs h1 h2⟩

theorem isHeap_root_le (a : Array SchedJob) (h : isHeap a) :
    ∀ j, j < a.size → leP (hget a 0) (hget a j) := by
  intro j
  induction j using Nat.strong_induction_on with
  | _ j ih =>
    intro hj
    rcases Nat.eq_zero_or_pos j with h0 | hpos
    · subst h0; exact leP_refl _
    · exact leP_trans (ih ((j - 1) / 2) (by omega) (by omega)) (h j hpos hj)

theorem heappush_isHeap (a : Array SchedJob) (x : SchedJob) (h : isHeap a) :
    isHeap (heappush a x) := by
  unfold heappush siftdownFrom
  have hsz : (a.push x).size - 1 = a.size := by simp
  rw [hsz]
  refine siftdownLoopF_isHeap a.size (a.push x) a.size (hget (a.push x) a.size)
    (Nat.le_refl _) (by simp) ?_ ?_ ?_
  · intro c hc hcs hcp
    rw [Array.size_push] at hcs
    have hcs' : c < a.size := by omega
    rw [hget_push_lt a x c hcs', hget_push_lt a x _ (by omega)]
    exact h c hc hcs'
  · intro c hc hcs hpar
    rw [Array.size_push] at hcs
    exact absurd hpar (by omega)
  · intro hp c hc hcs hpar
    rw [Array.size_push] at hcs
    exact absurd hpar (by omega)

theorem heappop_eq_small (a : Array SchedJob) (h0 : a.size = 1) :
    heappop a = some (hget a 0, a.pop) := by
  simp only [heappop]
  rw [if_neg (by omega), if_pos (by simp [h0])]
  have hm : a.size - 1 = 0 := by omega
  rw [hm]

theorem heappop_eq_big (a : Array SchedJob) (h2 : 2 ≤ a.size) :
    heappop a =
      some (hget a.pop 0, siftup (hset a.pop 0 (hget a (a.size - 1))) 0) := by
  simp only [heappop]
  rw [if_neg (by omega), if_neg (by simp; omega)]

theorem siftup_zero_isHeap (b : Array SchedJob) (hb : 0 < b.size)
    (hA0 : ∀ c, 0 < c → c < b.size → (c - 1) / 2 ≠ 0 → c ≠ 0 →
      leP (hget b ((c - 1) / 2)) (hget b c)) :
    isHeap (siftup b 0) := by
  obtain ⟨hs1, hs2, hs3, hs4⟩ := siftupLoopF_spec b.size b 0 (by omega) hb
    (by
      intro c hc0 hcs hcpar hc
      exact hA0 c hc0 hcs hcpar hc)
    (fun hcontra => absurd hcontra (by omega))
  have hsiftup : siftup b 0 =
      siftdownLoopF (siftupLoopF b.size b 0).2
        (hset (siftupLoopF b.size b 0).1 (siftupLoopF b.size b 0).2 (hget b 0))
        0 (siftupLoopF b.size b 0).2
        (hget (hset (siftupLoopF b.size b 0).1 (siftupLoopF b.size b 0).2
          (hget b 0)) (siftupLoopF b.size b 0).2) := rfl
  rw [hsiftup]
  refine siftdownLoopF_isHeap (siftupLoopF b.size b 0).2 _
    (siftupLoopF b.size b 0).2 _ (Nat.le_refl _)
    (by rw [hset_size, hs1]; exact hs2) ?_ ?_ ?_
  · intro c hc hcs hcp
    rw [hset_size, hs1] at hcs
    by_cases hcpar : (c - 1) / 2 = (siftupLoopF b.size b 0).2
    · exact absurd hcpar (by omega)
    · rw [hget_hset_other _ _ _ _ (fun hh => hcpar hh.symm),
        hget_hset_other _ _ _ _ (fun hh => hcp hh.symm)]
      exact hs4 c hc hcs hcpar hcp
  · intro c hc hcs hpar
    rw [hset_size, hs1] at hcs
    exact absurd hpar (by omega)
  · intro hp c hc hcs hpar
    rw [hset_size, hs1] at hcs
    exact absurd hpar (by omega)

theorem heappop_spec (a : Array SchedJob) (j : SchedJob) (a' : Array SchedJob)
    (h : isHeap a) (hpop : heappop a = some (j, a')) :
    isHeap a' ∧ ∀ i, i < a.size → leP j (hget a i) := by
  by_cases hsz : a.size = 0
  · rw [show heappop a = none from by simp only [heappop]; rw [if_pos hsz]] at hpop
    exact absurd hpop (by simp)
  · by_cases hsz1 : a.size = 1
    · rw [heappop_eq_small a hsz1, Option.some.injEq, Prod.mk.injEq] at hpop
      obtain ⟨hj, ha'⟩ := hpop
      subst hj
      subst ha'
      constructor
      · intro c hc hcs
        rw [Array.size_pop] at hcs
        exact absurd hcs (by omega)
      · intro i hi
        have hi0 : i = 0 := by omega
        subst hi0
        exact leP_refl _
    · have h2 : 2 ≤ a.size := by omega
      rw [heappop_eq_big a h2, Option.some.injEq, Prod.mk.injEq] at hpop
      obtain ⟨hj, ha'⟩ := hpop
      subst hj
      subst ha'
      constructor
      · refine siftup_zero_isHeap _ (by rw [hset_size, Array.size_pop]; omega) ?_
        intro c hc0 hcs hcpar hc
        rw [hset_size, Array.size_pop] at hcs
        rw [hget_hset_other _ _ _ _ (by omega),
          hget_hset_other _ _ _ _ (by omega),
          hget_pop_lt a c hcs, hget_pop_lt a _ (by omega)]
        exact h c hc0 (by omega)
      · intro i hi
        rw [hget_pop_lt a 0 (by omega)]
        exact isHeap_root_le a h i hi

/-- Queue states reachable through the `asyncio.PriorityQueue` operations
(`_put = heappush`, `_get = heappop`) from the empty queue. -/
inductive QueueReach : Array SchedJob → Prop where
  | empty : QueueReach #[]
  | push (a : Array SchedJob) (x : SchedJob) :
      QueueReach a → QueueReach (heappush a x)
  | pop (a : Array SchedJob) (j : SchedJob) (a' : Array SchedJob) :
      QueueReach a → heappop a = some (j, a') → QueueReach a'

theorem queueReach_isHeap (a : Array SchedJob) (h : QueueReach a) : isHeap a := by
  induction h with
  | empty => intro c hc hcs; exact absurd hcs (by simp)
  | push a x _ ih => exact heappush_isHeap a x ih
  | pop a j a' _ hpop ih => exact (heappop_spec a j a' ih hpop).1

/-- C8 (amended): in every queue state reachable through the scheduler's
enqueue/dequeue operations, a dequeue returns a job of minimal priority
among all waiting jobs — in particular a waiting manual/interactive job
(priority 0) is always dequeued before any waiting periodic job
(priority 1), and never preempts a job that has already been taken (the
dequeue happens only when the single consumer is between jobs).
Equal-priority jobs, however, are served in the binary heap's array
order, which is not insertion order (see the counterexample). -/
theorem claim8_job_ordering_amended (a : Array SchedJob) (j : SchedJob)
    (a' : Array SchedJob) (hreach : QueueReach a)
    (hpop : heappop a = some (j, a')) :
    ∀ i, i < a.size → j.priority ≤ (hget a i).priority := by
  exact (heappop_spec a j a' (queueReach_isHeap a hreach) hpop).2

/-- Witness for the amended C8: with a periodic job (priority 1) enqueued
before a manual job (priority 0), the dequeue returns the manual job, and
its priority is at most that of every waiting job. -/
theorem claim8_job_ordering_amended_witness :
    (⟨0, 2⟩ : SchedJob).priority ≤
      (hget (pushList #[] [⟨1, 1⟩, ⟨0, 2⟩]) 1).priority := by
  refine claim8_job_ordering_amended (pushList #[] [⟨1, 1⟩, ⟨0, 2⟩]) ⟨0, 2⟩
    (siftup (hset (pushList #[] [⟨1, 1⟩, ⟨0, 2⟩]).pop 0
      (hget (pushList #[] [⟨1, 1⟩, ⟨0, 2⟩])
        ((pushList #[] [⟨1, 1⟩, ⟨0, 2⟩]).size - 1))) 0)
    ?_ (by decide) 1 (by decide)
  exact QueueReach.push _ ⟨0, 2⟩ (QueueReach.push _ ⟨1, 1⟩ QueueReach.empty)

end SkWatchBot
